import Mathlib

/-!
Shallow embedding of the graph synchronization and view-state engine of
hal-diagram, translated from the TypeScript sources:

* `src/unnamed/part_002` — the Cytoscape hook, in particular
  `applyToCytoscape` and its inner helper `ensureNodeExists`;
* `src/src/util.tsx` — `Tree.toTree` (forest construction) and
  `StorageUtil.useLocalStorage` (local-storage cache synchronizer).

JavaScript specifics that matter for the embedding:

* the truthiness test on a `string | undefined` value (`while (parentId)`,
  `if (node.parent)`) is false for both `undefined` and the empty string,
  so it is modelled as `truthy : Option String → Bool`;
* the unguarded `while` loop that walks parent references may diverge, so
  it is modelled with explicit fuel, returning `none` when the fuel runs
  out (`nodes.length + 1` fuel suffices for every terminating walk, proved
  below);
* `Array.prototype.sort` is a stable sort, modelled by `List.mergeSort`;
* `UUID.v4()` is modelled as a fresh counter carried in the state;
* `cy.add` is modelled by appending to an insertion log, so insertion
  order is observable.
-/

namespace HalDiagram

/-! ## Data model (spec §3, §6; used by `applyToCytoscape` in part_002) -/

namespace DS

/-- A node of a data set: `{ label, parent? }` (spec §6 persisted layout). -/
structure Node where
  label : String
  parent : Option String
  deriving DecidableEq, Repr

/-- An edge of a data set: `{ source, target, label }`. -/
structure Edge where
  source : String
  target : String
  label : String
  deriving DecidableEq, Repr

/-- A data set: a mapping from node identifier to `Node` (modelled as an
association list in JS object key order; keys are unique per spec §3),
plus an ordered sequence of edges. -/
structure DataSet where
  nodes : List (String × Node)
  edges : List Edge
  deriving DecidableEq, Repr

end DS

/-- Lookup in an association list, modelling a JS object property access
`obj[key]` (returns `undefined`, i.e. `none`, when the key is absent). -/
def lookupId {β : Type} (k : String) : List (String × β) → Option β
  | [] => none
  | (k₀, v) :: rest => if k₀ = k then some v else lookupId k rest

/-- JS truthiness of a `string | undefined` value: `undefined` and the
empty string are falsy. -/
def truthy : Option String → Bool
  | none => false
  | some s => !(s == "")

/-! ## Parent-chain depth walk (part_002 lines 91–102)

```js
let depth = 0
let parentId = node.parent
while (parentId) {
  const parent = dataSet.nodes[parentId]
  if (!parent) break // 親のIDは指定されているがグラフ中に存在しない場合
  depth++
  parentId = parent.parent
}
```

The loop has no cycle guard; the embedding makes the possible divergence
explicit with a fuel parameter (`none` = fuel exhausted). -/

def depthFrom (nodes : List (String × DS.Node)) : Nat → Option String → Nat → Option Nat
  | _, none, acc => some acc
  | fuel, some p, acc =>
    if p = "" then some acc
    else
      match fuel with
      | 0 => none
      | fuel' + 1 =>
        match lookupId p nodes with
        | none => some acc
        | some parent => depthFrom nodes fuel' parent.parent (acc + 1)

/-- One step of the parent walk: from id `p`, the next id the walk visits,
if any (the node must exist and its `parent` must be truthy). -/
def pnext (nodes : List (String × DS.Node)) (p : String) : Option String :=
  match lookupId p nodes with
  | none => none
  | some n =>
    match n.parent with
    | none => none
    | some q => if q = "" then none else some q

/-- Iterate `pnext` a given number of times. -/
def pnextIter (nodes : List (String × DS.Node)) : Nat → String → Option String
  | 0, p => some p
  | k + 1, p =>
    match pnext nodes p with
    | none => none
    | some q => pnextIter nodes k q

/-- The parent references of a node list form no cycle. Any cycle of the
walk consists of ids that are keys of `nodes` and has length at most
`nodes.length`, so quantifying over those suffices (and keeps the
predicate decidable on concrete inputs). -/
def noCycle (nodes : List (String × DS.Node)) : Prop :=
  ∀ p ∈ nodes.map Prod.fst, ∀ k, k < nodes.length → pnextIter nodes (k + 1) p ≠ some p

instance (nodes : List (String × DS.Node)) : Decidable (noCycle nodes) := by
  unfold noCycle
  infer_instance

/-! ## Live-model elements and the synchronization state -/

/-- An element record added to the live Cytoscape model: either a node
`{ id, label, parent }` or an edge `{ id, source, target, label }`
(edge ids, freshly generated by `UUID.v4()`, are modelled by a counter). -/
inductive CyElement : Type where
  | node (id : String) (label : String) (parent : Option String)
  | edge (id : Nat) (source : String) (target : String) (label : String)
  deriving DecidableEq, Repr

/-- State of one `applyToCytoscape` run: the `nodeIds` set, the list of
elements added so far (in insertion order), and the fresh-id counter. -/
structure SyncState where
  nodeIds : List String
  elements : List CyElement
  nextEdgeId : Nat
  deriving DecidableEq, Repr

/-- part_002 lines 80–85:

```js
const ensureNodeExists = (id: string) => {
  if (nodeIds.has(id)) return
  nodeIds.add(id)
  const label = id
  cy.add({ data: { id, label } })
}
``` -/
def ensureNodeExists (s : SyncState) (id : String) : SyncState :=
  if id ∈ s.nodeIds then s
  else
    { s with
      nodeIds := id :: s.nodeIds
      elements := s.elements ++ [CyElement.node id id none] }

/-- part_002 line 111, `if (node.parent) ensureNodeExists(node.parent)`:
the guard is JS truthiness, so an absent or empty parent id skips the
call. -/
def ensureParent (s : SyncState) (node : DS.Node) : SyncState :=
  match node.parent with
  | none => s
  | some p => if p = "" then s else ensureNodeExists s p

/-- part_002 lines 110–115: one iteration of the node-insertion loop.

```js
if (node.parent) ensureNodeExists(node.parent)
const label = node.label
const parent = node.parent
cy.add({ data: { id, label, parent } })
``` -/
def addDataNode (s : SyncState) (id : String) (node : DS.Node) : SyncState :=
  let s₁ := ensureParent s node
  { s₁ with elements := s₁.elements ++ [CyElement.node id node.label node.parent] }

/-- The node-insertion loop over the depth-sorted node list. -/
def nodePhase : SyncState → List (String × DS.Node × Nat) → SyncState
  | s, [] => s
  | s, (id, node, _) :: rest => nodePhase (addDataNode s id node) rest

/-- part_002 lines 118–124: one iteration of the edge loop.

```js
ensureNodeExists(source)
ensureNodeExists(target)
const id = UUID.v4()
cy.add({ data: { id, source, target, label } })
``` -/
def addEdge (s : SyncState) (e : DS.Edge) : SyncState :=
  let s₁ := ensureNodeExists s e.source
  let s₂ := ensureNodeExists s₁ e.target
  { s₂ with
    elements := s₂.elements ++ [CyElement.edge s₂.nextEdgeId e.source e.target e.label]
    nextEdgeId := s₂.nextEdgeId + 1 }

/-- The edge-insertion loop. -/
def edgePhase : SyncState → List DS.Edge → SyncState
  | s, [] => s
  | s, e :: rest => edgePhase (addEdge s e) rest

/-- part_002 lines 91–102: annotate every node entry with its computed
parent-chain depth (the `reduce` building `nodesWithDepth`). `none` when
some walk exhausts its fuel, i.e. does not terminate. -/
def withDepths (nodes : List (String × DS.Node)) :
    List (String × DS.Node) → Option (List (String × DS.Node × Nat))
  | [] => some []
  | (id, node) :: rest =>
    match depthFrom nodes (nodes.length + 1) node.parent 0, withDepths nodes rest with
    | some d, some l => some ((id, node, d) :: l)
    | _, _ => none

/-- Insert an entry into a depth-sorted list, before the first entry of
greater-or-equal depth. Used to model the stable sort below. -/
def insertByDepth (x : String × DS.Node × Nat) :
    List (String × DS.Node × Nat) → List (String × DS.Node × Nat)
  | [] => [x]
  | y :: rest => if x.2.2 ≤ y.2.2 then x :: y :: rest else y :: insertByDepth x rest

/-- part_002 lines 104–108: `nodesWithDepth.sort((a, b) => ...)` where the
comparator returns `-1/0/1` comparing only depths. `Array.prototype.sort`
is required by the language standard to be stable, and a stable sort's
output is uniquely determined by the comparator, so the sort is modelled
by a stable insertion sort; the three characterizing properties
(permutation of the input, sorted ascending by depth, and preservation of
the input order of equal-depth entries) are proved below. -/
def sortByDepth : List (String × DS.Node × Nat) → List (String × DS.Node × Nat)
  | [] => []
  | x :: rest => insertByDepth x (sortByDepth rest)

/-- The initial state of a run: the `nodeIds` set is seeded with the keys
of `dataSet.nodes`, the model has just been emptied (`cy.elements().remove()`). -/
def initState (ds : DS.DataSet) : SyncState :=
  { nodeIds := ds.nodes.map Prod.fst, elements := [], nextEdgeId := 0 }

/-- The rebuild performed by `applyToCytoscape` (part_002 lines 75–124),
returning the full insertion log of the live model, or `none` when a
parent-chain depth walk diverges (in which case the real code hangs). -/
def applyToCytoscape (ds : DS.DataSet) : Option (List CyElement) :=
  match withDepths ds.nodes ds.nodes with
  | none => none
  | some nwd =>
    let sorted := sortByDepth nwd
    let s₁ := nodePhase (initState ds) sorted
    let s₂ := edgePhase s₁ ds.edges
    some s₂.elements

/-! ## Batched mutation with exception semantics (part_002 lines 69–132, claim C9)

`applyToCytoscape` wraps the whole rebuild in

```js
try {
  cy.startBatch()
  ...body...
} finally {
  cy.endBatch()
}
```

To reason about an internal error thrown mid-rebuild, the body is modelled
as the sequence of operations it performs on the Cytoscape instance, and a
possible throw point truncates that sequence; the `finally` clause appends
`endBatch` in either case. -/

/-- An operation performed on the Cytoscape instance during a rebuild. -/
inductive CyOp : Type where
  | startBatch
  | endBatch
  | collectVS
  | removeAll
  | addElem (e : CyElement)
  | applyVS (tag : Nat)
  deriving DecidableEq, Repr

/-- The operation sequence of the body of the `try` block after
`startBatch`: collect the prior view state, remove all elements, add every
element of the rebuild in insertion order, then apply the two view states
(tag 0 = the `viewState` argument, tag 1 = `viewStateBeforeQuery`). -/
def bodyOps (ds : DS.DataSet) : Option (List CyOp) :=
  match applyToCytoscape ds with
  | none => none
  | some elems =>
    some (CyOp.collectVS :: CyOp.removeAll :: elems.map CyOp.addElem
      ++ [CyOp.applyVS 0, CyOp.applyVS 1])

/-- A run of `applyToCytoscape` under the exception semantics of
`try`/`finally`: `failAt = none` models a normal run; `failAt = some k`
models an internal error thrown after `k` operations of the body, which
truncates the body and rethrows after the `finally` clause runs. Returns
the operation trace on the Cytoscape instance and whether the run threw. -/
def runWithBatch (ds : DS.DataSet) (failAt : Option Nat) : Option (List CyOp × Bool) :=
  match bodyOps ds with
  | none => none
  | some ops =>
    match failAt with
    | none => some (CyOp.startBatch :: ops ++ [CyOp.endBatch], false)
    | some k => some (CyOp.startBatch :: ops.take k ++ [CyOp.endBatch], true)

/-! ## Local cache synchronizer (`StorageUtil.useLocalStorage`, util.tsx lines 126–182) -/

namespace StorageUtil

/-- A JavaScript value whose static type is `T`: either a proper value or
a nullish value (`null`/`undefined`). The distinction is observable
because the cache read uses the `??` operator, which tests nullishness of
the stored value at runtime. -/
inductive JsVal (T : Type) : Type where
  | nullish
  | val (t : T)
  deriving DecidableEq, Repr

/-- Result union of a deserializer:
`{ ok: true, obj: T } | { ok: false }`. -/
inductive DeserializeResult (T : Type) : Type where
  | ok (obj : JsVal T)
  | fail
  deriving DecidableEq, Repr

/-- The `LocalStorageHandler<T>` record of util.tsx lines 128–133. -/
structure LocalStorageHandler (T : Type) : Type where
  storageKey : String
  serialize : JsVal T → String
  deserialize : String → DeserializeResult T
  defaultValue : Unit → JsVal T

/-- Update of a keyed JS object or map (`{ ...state, [key]: value }` in
the `cache` reducer action, util.tsx lines 139–141): an existing key keeps
its position and gets the new value; a new key is appended at the end. -/
def setKey {α : Type} : List (String × α) → String → α → List (String × α)
  | [], k, v => [(k, v)]
  | e :: rest, k, v => if e.1 = k then (k, v) :: rest else e :: setKey rest k v

/-- The persistent store (`localStorage`): key-addressed strings. -/
def Storage : Type := List (String × String)

/-- The process-wide cache `S` (`LocalStorageData`), restricted to one
value type. -/
def Cache (T : Type) : Type := List (String × JsVal T)

/-- util.tsx lines 156–159, the `data` memo:

```js
const cachedData = dataSet[handler.storageKey] as T | undefined
return cachedData ?? handler.defaultValue()
``` -/
def dataOf {T : Type} (cache : Cache T) (h : LocalStorageHandler T) : JsVal T :=
  match lookupId h.storageKey cache with
  | some (JsVal.val t) => JsVal.val t
  | _ => h.defaultValue ()

/-- util.tsx lines 161–172, the mount effect that lazily populates the
cache from `localStorage`; the `Bool` reports whether the
`console.warn` branch was taken:

```js
const serialized = localStorage.getItem(handler.storageKey)
if (serialized == null) return
const deserialized = handler.deserialize(serialized)
if (!deserialized.ok) {
  console.warn(...)
  return
}
dispatch(state => state.cache(handler.storageKey, deserialized.obj))
``` -/
def loadIntoCache {T : Type} (storage : Storage) (cache : Cache T)
    (h : LocalStorageHandler T) : Cache T × Bool :=
  match lookupId h.storageKey storage with
  | none => (cache, false)
  | some serialized =>
    match h.deserialize serialized with
    | DeserializeResult.fail => (cache, true)
    | DeserializeResult.ok obj => (setKey cache h.storageKey obj, false)

/-- util.tsx lines 174–178, `save`:

```js
const serialized = handler.serialize(value)
localStorage.setItem(handler.storageKey, serialized)
dispatch(state => state.cache(handler.storageKey, value))
``` -/
def save {T : Type} (storage : Storage) (cache : Cache T)
    (h : LocalStorageHandler T) (value : JsVal T) : Storage × Cache T :=
  (setKey storage h.storageKey (h.serialize value), setKey cache h.storageKey value)

end StorageUtil

/-! ## Tree utility (`Tree.toTree`, util.tsx lines 185–267), parent-pointer mode -/

namespace Tree

/-- A JS `Map` built from an entry list (util.tsx lines 197–201, the
`new Map(items.map(...))` constructor): a duplicated key keeps its first
position and its last value. -/
def buildMap {T : Type} (getId : T → String) :
    List (String × T) → List T → List (String × T)
  | acc, [] => acc
  | acc, it :: rest => buildMap getId (StorageUtil.setKey acc (getId it) it) rest

/-- The `treeNodes` map of `toTree` as an ordered entry list. -/
def toMapEntries {T : Type} (items : List T) (getId : T → String) : List (String × T) :=
  buildMap getId [] items

/-- The resolved parent of the wrapper node for `id` after the
parent-wiring pass (util.tsx lines 203–210): `undefined` when the item's
parent id is `null`/`undefined` (`if (parentId == null) continue`) or when
the lookup fails (`node[1].parent = parent` with `parent === undefined`). -/
def resolvedParentId {T : Type} (m : List (String × T)) (getParent : T → Option String)
    (id : String) : Option String :=
  match lookupId id m with
  | none => none
  | some it =>
    match getParent it with
    | none => none
    | some pid => if (lookupId pid m).isSome then some pid else none

/-- Depth of a wrapper node: the length of its ancestor chain obtained by
walking resolved parent links (`getDepth`/`getAncestors`, util.tsx lines
239–247 and 265–267). The walk has no cycle guard, hence the fuel. -/
def chainDepth {T : Type} (m : List (String × T)) (getParent : T → Option String) :
    Nat → String → Option Nat
  | fuel, id =>
    match resolvedParentId m getParent id with
    | none => some 0
    | some pid =>
      match fuel with
      | 0 => none
      | fuel' + 1 =>
        match chainDepth m getParent fuel' pid with
        | none => none
        | some d => some (d + 1)

/-- The depth-assignment pass (util.tsx lines 211–213): annotate every map
entry with its computed depth; `none` when a walk exhausts its fuel. -/
def entriesWithDepth {T : Type} (m : List (String × T)) (getParent : T → Option String) :
    List (String × T) → Option (List (String × T × Nat))
  | [] => some []
  | (id, it) :: rest =>
    match chainDepth m getParent (m.length + 1) id, entriesWithDepth m getParent rest with
    | some d, some l => some ((id, it, d) :: l)
    | _, _ => none

/-- `Tree.toTree` in parent-pointer mode (util.tsx lines 196–237): build
the id map, wire and resolve parents, compute depths, and return only the
roots (`filter(node => node.depth === 0)`), each as
`(id, item, depth)`. -/
def toTree {T : Type} (items : List T) (getId : T → String) (getParent : T → Option String) :
    Option (List (String × T × Nat)) :=
  let m := toMapEntries items getId
  match entriesWithDepth m getParent m with
  | none => none
  | some wd => some (wd.filter (fun x => x.2.2 == 0))

/-- The ids of the children wired to the node `pid`, in map order (the
`parent?.children.push(node[1])` of util.tsx line 209, executed while
iterating the map in insertion order). -/
def childrenIds {T : Type} (m : List (String × T)) (getParent : T → Option String)
    (pid : String) : List String :=
  (m.filter (fun e => resolvedParentId m getParent e.1 == some pid)).map Prod.fst

end Tree

/-! ## View-state store (claim C5)

Modelled from the spec: the `useViewState` hook (`collectViewState` /
`applyViewState`) lives in `Cy.SaveLoad`, which is not among the provided
sources; §3 (ViewState) and §4.3 (`apply`) of the spec describe it. The
order in which the two view states are reapplied is source code
(part_002 lines 126–128). -/

/-- Modelled from the spec: a camera descriptor, `pan offset` and `zoom
factor` (spec §3). No arithmetic is ever performed on coordinates, so the
numeric carrier is irrelevant; `Int` keeps everything decidable. -/
structure Camera where
  panX : Int
  panY : Int
  zoom : Int
  deriving DecidableEq, Repr

/-- Modelled from the spec: a `ViewState` (spec §3) — positions keyed by
node identifier, an optional camera descriptor, selected element ids,
collapsed node ids, and the lock flag. -/
structure ViewState where
  positions : List (String × (Int × Int))
  camera : Option Camera
  selected : List String
  collapsed : List String
  locked : Bool
  deriving DecidableEq, Repr

/-- Modelled from the spec: the transient visual attributes of the live
graph instance that `apply` mutates (spec §4.3); `positions` holds an
entry for every node element of the live model. -/
structure VisualState where
  positions : List (String × (Int × Int))
  camera : Camera
  selected : List String
  collapsed : List String
  locked : Bool
  deriving DecidableEq, Repr

/-- Modelled from the spec: `apply(viewState)` (spec §4.3) — for every
node identifier present in `viewState.positions` that also exists in the
live model, set its position; set camera pan/zoom if provided; set
selection to the provided set, silently skipping elements missing from
the live model; restore collapsed state the same way; restore the lock
flag. Unknown identifiers are ignored, never an error. -/
def applyViewState (vs : ViewState) (m : VisualState) : VisualState :=
  { positions := m.positions.map (fun e =>
      match lookupId e.1 vs.positions with
      | some q => (e.1, q)
      | none => e)
    camera :=
      match vs.camera with
      | some c => c
      | none => m.camera
    selected := vs.selected.filter (fun id => (lookupId id m.positions).isSome)
    collapsed := vs.collapsed.filter (fun id => (lookupId id m.positions).isSome)
    locked := vs.locked }

/-- part_002 lines 126–128: the fixed reapplication order of
`applyToCytoscape` — the just-loaded view state (the `viewState`
argument) is applied first, then the view state captured immediately
before the rebuild (`viewStateBeforeQuery`) is applied on top:

```js
applyViewState(viewState)
applyViewState(viewStateBeforeQuery)
``` -/
def reapplyViewStates (justLoaded prior : ViewState) (m : VisualState) : VisualState :=
  applyViewState prior (applyViewState justLoaded m)

/-- A node-element in the insertion log with the given id, regardless of
label and parent. -/
def hasNodeElem (elems : List CyElement) (id : String) : Prop :=
  ∃ lbl pr, CyElement.node id lbl pr ∈ elems

/-! ## Concrete data sets used in scenario theorems, counterexamples and witnesses -/

/-- Spec §8 scenario: `{nodes:{A, B parent A}, edges:[A→B]}`. -/
def dsScenario1 : DS.DataSet :=
  ⟨[("A", ⟨"A", none⟩), ("B", ⟨"B", some "A"⟩)], [⟨"A", "B", "e"⟩]⟩

/-- Spec §8 scenario: edge referencing the unknown node `Z`. -/
def dsScenario2 : DS.DataSet :=
  ⟨[("A", ⟨"A", none⟩)], [⟨"A", "Z", "e"⟩]⟩

/-- A two-step chain whose top parent id `B` is absent: `X → A → B`. -/
def nodesBroken : List (String × DS.Node) :=
  [("X", ⟨"X", some "A"⟩), ("A", ⟨"A", some "B"⟩)]

/-- A data set whose second node's key is the empty string, referenced as
parent by the first node; `""` is falsy in JS, so the parent walk and the
pre-insert `if (node.parent)` guard both ignore the reference. -/
def dsEmptyKey : DS.DataSet :=
  ⟨[("B", ⟨"B", some ""⟩), ("", ⟨"root", none⟩)], []⟩

/-- A self-referential parent chain (`A` is its own parent). -/
def cycNodes : List (String × DS.Node) :=
  [("A", ⟨"A", some "A"⟩)]

/-- A three-node chain given out of order, for ordering witnesses. -/
def dsChain : DS.DataSet :=
  ⟨[("c", ⟨"c", some "b"⟩), ("a", ⟨"a", none⟩), ("b", ⟨"b", some "a"⟩)], []⟩

/-- A flat item with an id and an optional parent id, for the
`Tree.toTree` scenario. -/
structure Item where
  id : String
  parent : Option String
  deriving DecidableEq, Repr

/-- Spec §8 scenario input for `buildForest`:
`[{id:"1"},{id:"2",parent:"1"},{id:"3",parent:"9"}]`. -/
def items6 : List Item :=
  [⟨"1", none⟩, ⟨"2", some "1"⟩, ⟨"3", some "9"⟩]

/-- The id map built by `toTree` over `items6`. -/
def map6 : List (String × Item) :=
  Tree.toMapEntries items6 Item.id

/-- A concrete handler over `Nat` values, for storage witnesses: default
value 0 under key `K`. -/
def hK : StorageUtil.LocalStorageHandler Nat :=
  { storageKey := "K"
    serialize := fun _ => "bytes"
    deserialize := fun _ => StorageUtil.DeserializeResult.fail
    defaultValue := fun _ => StorageUtil.JsVal.val 0 }

/-- A concrete handler over `Nat` values whose deserializer accepts the
string `"5"` only, for the read witnesses. -/
def hK5 : StorageUtil.LocalStorageHandler Nat :=
  { storageKey := "K"
    serialize := fun _ => "5"
    deserialize := fun s =>
      if s = "5" then StorageUtil.DeserializeResult.ok (StorageUtil.JsVal.val 5)
      else StorageUtil.DeserializeResult.fail
    defaultValue := fun _ => StorageUtil.JsVal.val 0 }

/-- A concrete live visual state with nodes `A`, `B`, `C` at the origin. -/
def mDemo : VisualState :=
  { positions := [("A", (0, 0)), ("B", (0, 0)), ("C", (0, 0))]
    camera := ⟨0, 0, 1⟩
    selected := []
    collapsed := []
    locked := false }

/-- A just-loaded view state positioning `A` and `B`. -/
def vsLoaded : ViewState :=
  { positions := [("A", (1, 1)), ("B", (2, 2))]
    camera := none
    selected := []
    collapsed := []
    locked := false }

/-- A pre-reload view state positioning only `A`. -/
def vsPrior : ViewState :=
  { positions := [("A", (9, 9))]
    camera := none
    selected := []
    collapsed := []
    locked := true }

/-! ## Basic lemmas about association-list lookup and update -/

theorem lookupId_eq_none_iff {β : Type} {k : String} {l : List (String × β)} :
    lookupId k l = none ↔ k ∉ l.map Prod.fst := by
  induction l with
  | nil => simp [lookupId]
  | cons e rest ih =>
    obtain ⟨k₀, v⟩ := e
    by_cases h : k₀ = k
    · subst h
      simp [lookupId]
    · simp [lookupId, h, ih, Ne.symm h]

theorem mem_keys_of_lookupId {β : Type} {k : String} {v : β} {l : List (String × β)}
    (h : lookupId k l = some v) : k ∈ l.map Prod.fst := by
  by_contra hmem
  rw [← lookupId_eq_none_iff (l := l)] at hmem
  rw [h] at hmem
  exact Option.noConfusion hmem

theorem lookupId_of_mem_nodup {β : Type} {k : String} {v : β} {l : List (String × β)}
    (hmem : (k, v) ∈ l) (hnd : (l.map Prod.fst).Nodup) : lookupId k l = some v := by
  induction l with
  | nil => cases hmem
  | cons e rest ih =>
    obtain ⟨k₀, v₀⟩ := e
    simp only [List.map_cons, List.nodup_cons] at hnd
    rcases List.mem_cons.mp hmem with heq | htail
    · injection heq with hk hv
      subst hk
      subst hv
      simp [lookupId]
    · have hk₀ : k₀ ≠ k := by
        rintro rfl
        exact hnd.1 (List.mem_map.mpr ⟨(k₀, v), htail, rfl⟩)
      simp [lookupId, hk₀, ih htail hnd.2]

theorem lookupId_append_of_none {β : Type} {k : String} {l₁ l₂ : List (String × β)}
    (h : lookupId k l₁ = none) : lookupId k (l₁ ++ l₂) = lookupId k l₂ := by
  induction l₁ with
  | nil => simp
  | cons e rest ih =>
    obtain ⟨k₀, v⟩ := e
    by_cases hk : k₀ = k
    · simp [lookupId, hk] at h
    · simp only [lookupId, hk, if_false] at h ⊢
      exact ih h

theorem lookupId_setKey_self {β : Type} (l : List (String × β)) (k : String) (v : β) :
    lookupId k (StorageUtil.setKey l k v) = some v := by
  induction l with
  | nil => simp [StorageUtil.setKey, lookupId]
  | cons e rest ih =>
    obtain ⟨k₀, w⟩ := e
    by_cases h : k₀ = k
    · simp [StorageUtil.setKey, h, lookupId]
    · simp [StorageUtil.setKey, h, lookupId, ih]

/-! ## Claim C3 — depth at a broken parent chain -/

/-- Counterexample to claim C3: in `nodesBroken`, node `X`'s parent chain
(`X → A → B`) reaches the id `B`, which is absent from the node map, yet
the computed depth of `X` is 1, not 0: the walk keeps the depth
accumulated before the break. -/
theorem depth_broken_chain_cex :
    lookupId "A" nodesBroken = some ⟨"A", some "B"⟩ ∧
    lookupId "B" nodesBroken = none ∧
    depthFrom nodesBroken (nodesBroken.length + 1) (some "A") 0 = some 1 ∧
    withDepths nodesBroken nodesBroken =
      some [("X", ⟨"X", some "A"⟩, 1), ("A", ⟨"A", some "B"⟩, 0)] ∧
    (1 : Nat) ≠ 0 := by
  refine ⟨rfl, rfl, rfl, rfl, one_ne_zero⟩

/-- Claim C3, amended: when the walk meets a truthy parent id absent from
`dataSet.nodes` it stops and returns the depth accumulated so far (so a
node whose immediate parent id is absent gets depth 0, but a longer chain
keeps the steps already counted); when the id resolves, the walk counts
one step and continues from the found node's parent. -/
theorem depth_walk_stops_at_missing_parent (nodes : List (String × DS.Node))
    (p : String) (acc fuel : Nat) (hp : p ≠ "") :
    (lookupId p nodes = none → depthFrom nodes (fuel + 1) (some p) acc = some acc) ∧
    (∀ n, lookupId p nodes = some n →
      depthFrom nodes (fuel + 1) (some p) acc = depthFrom nodes fuel n.parent (acc + 1)) := by
  constructor
  · intro hmiss
    simp [depthFrom, hp, hmiss]
  · intro n hfind
    simp [depthFrom, hp, hfind]

/-- Witness for `depth_walk_stops_at_missing_parent` at the concrete
broken chain: the walk for `X` stopped at `B` keeps depth 1. -/
theorem depth_walk_stops_at_missing_parent_witness :
    depthFrom nodesBroken 2 (some "B") 1 = some 1 :=
  (depth_walk_stops_at_missing_parent nodesBroken "B" 1 1 (by decide)).1 (by decide)

/-! ## Claim C7 — cache read never raises and falls back to the default -/

/-- Claim C7: reading a key not yet cached never raises — with no stored
bytes the cache is left untouched and the read yields `defaultValue()`;
with bytes that fail to deserialize a warning is logged, the cache is
left untouched and the read yields `defaultValue()`; only successfully
deserialized bytes populate the cache entry. -/
theorem localStorage_read_total {T : Type} (storage : StorageUtil.Storage)
    (cache : StorageUtil.Cache T) (h : StorageUtil.LocalStorageHandler T)
    (hmiss : lookupId h.storageKey cache = none) :
    (lookupId h.storageKey storage = none →
      StorageUtil.loadIntoCache storage cache h = (cache, false) ∧
      StorageUtil.dataOf cache h = h.defaultValue ()) ∧
    (∀ s, lookupId h.storageKey storage = some s →
      h.deserialize s = StorageUtil.DeserializeResult.fail →
      StorageUtil.loadIntoCache storage cache h = (cache, true) ∧
      StorageUtil.dataOf cache h = h.defaultValue ()) ∧
    (∀ s v, lookupId h.storageKey storage = some s →
      h.deserialize s = StorageUtil.DeserializeResult.ok v →
      StorageUtil.loadIntoCache storage cache h =
        (StorageUtil.setKey cache h.storageKey v, false) ∧
      StorageUtil.dataOf (StorageUtil.loadIntoCache storage cache h).1 h =
        StorageUtil.dataOf [(h.storageKey, v)] h) := by
  refine ⟨?_, ?_, ?_⟩
  · intro hnone
    constructor
    · simp [StorageUtil.loadIntoCache, hnone]
    · simp [StorageUtil.dataOf, hmiss]
  · intro s hsome hfail
    constructor
    · simp [StorageUtil.loadIntoCache, hsome, hfail]
    · simp [StorageUtil.dataOf, hmiss]
  · intro s v hsome hok
    constructor
    · simp [StorageUtil.loadIntoCache, hsome, hok]
    · simp [StorageUtil.loadIntoCache, hsome, hok, StorageUtil.dataOf,
        lookupId_setKey_self, lookupId]

/-- Witness for `localStorage_read_total`: on an empty cache, a stored
string the handler `hK5` deserializes populates the cache entry. -/
theorem localStorage_read_total_witness :
    StorageUtil.loadIntoCache [("K", "5")] ([] : StorageUtil.Cache Nat) hK5 =
      (StorageUtil.setKey [] "K" (StorageUtil.JsVal.val 5), false) ∧
    StorageUtil.dataOf (StorageUtil.loadIntoCache [("K", "5")] ([] : StorageUtil.Cache Nat) hK5).1 hK5 =
      StorageUtil.dataOf [("K", StorageUtil.JsVal.val 5)] hK5 :=
  (localStorage_read_total [("K", "5")] [] hK5 rfl).2.2 "5" (StorageUtil.JsVal.val 5) rfl rfl

/-! ## Claim C8 — read-your-write consistency of the cache -/

/-- Counterexample to claim C8 as stated for arbitrary values: writing the
nullish value under key `K` updates the cache entry to the nullish value,
but a subsequent read returns `defaultValue()` (here `val 0`), not the
written value, because the read uses the `??` operator on the cached
value. -/
theorem localStorage_write_nullish_cex :
    (StorageUtil.save [] [] hK StorageUtil.JsVal.nullish).2 =
      [("K", StorageUtil.JsVal.nullish)] ∧
    StorageUtil.dataOf (StorageUtil.save [] [] hK StorageUtil.JsVal.nullish).2 hK =
      StorageUtil.JsVal.val 0 ∧
    StorageUtil.JsVal.val 0 ≠ (StorageUtil.JsVal.nullish : StorageUtil.JsVal Nat) := by
  refine ⟨rfl, rfl, by decide⟩

/-- Claim C8, amended: `write(key, value)` persists the serialized value
and updates the shared cache entry for the key to the written value (for
every value, nullish included), and for every non-nullish value any
subsequent read of the key through the cache returns the written value;
the read consults only the cache (`dataOf` takes no storage argument), so
no persistent-storage re-read is involved. -/
theorem localStorage_read_your_write {T : Type} (storage : StorageUtil.Storage)
    (cache : StorageUtil.Cache T) (h : StorageUtil.LocalStorageHandler T) :
    (∀ v, lookupId h.storageKey (StorageUtil.save storage cache h v).2 = some v) ∧
    (∀ v, lookupId h.storageKey (StorageUtil.save storage cache h v).1 =
      some (h.serialize v)) ∧
    (∀ t : T, StorageUtil.dataOf (StorageUtil.save storage cache h (StorageUtil.JsVal.val t)).2 h =
      StorageUtil.JsVal.val t) := by
  refine ⟨?_, ?_, ?_⟩
  · intro v
    exact lookupId_setKey_self cache h.storageKey v
  · intro v
    exact lookupId_setKey_self storage h.storageKey (h.serialize v)
  · intro t
    simp [StorageUtil.save, StorageUtil.dataOf, lookupId_setKey_self]

/-! ## Claim C10 — placeholder synthesis is idempotent and parentless -/

/-- Claim C10: `ensureNodeExists` leaves the state unchanged when the id
is already known; when the id is new it registers it and appends exactly
one placeholder node element whose label is the id itself and whose
parent is absent; the id is known afterwards in every case, so the call
is idempotent. -/
theorem ensureNodeExists_idempotent_parentless (s : SyncState) (id : String) :
    (id ∈ s.nodeIds → ensureNodeExists s id = s) ∧
    (id ∉ s.nodeIds → ensureNodeExists s id =
      { s with
        nodeIds := id :: s.nodeIds
        elements := s.elements ++ [CyElement.node id id none] }) ∧
    id ∈ (ensureNodeExists s id).nodeIds ∧
    ensureNodeExists (ensureNodeExists s id) id = ensureNodeExists s id ∧
    (∀ j, j ∈ s.nodeIds → j ∈ (ensureNodeExists s id).nodeIds) := by
  refine ⟨?_, ?_, ?_, ?_, ?_⟩
  · intro hmem
    simp [ensureNodeExists, hmem]
  · intro hmem
    simp [ensureNodeExists, hmem]
  · by_cases hmem : id ∈ s.nodeIds <;> simp [ensureNodeExists, hmem]
  · by_cases hmem : id ∈ s.nodeIds <;> simp [ensureNodeExists, hmem]
  · intro j hj
    by_cases hmem : id ∈ s.nodeIds <;> simp [ensureNodeExists, hmem, hj]

/-- Witness for `ensureNodeExists_idempotent_parentless` at a concrete
state: ensuring the known id `A` on the initial state of the second
scenario is the identity, and ensuring the new id `Z` appends exactly the
parentless placeholder. -/
theorem ensureNodeExists_idempotent_parentless_witness :
    ensureNodeExists (initState dsScenario2) "A" = initState dsScenario2 ∧
    ensureNodeExists (initState dsScenario2) "Z" =
      { initState dsScenario2 with
        nodeIds := "Z" :: (initState dsScenario2).nodeIds
        elements := (initState dsScenario2).elements ++ [CyElement.node "Z" "Z" none] } :=
  ⟨(ensureNodeExists_idempotent_parentless (initState dsScenario2) "A").1 (by decide),
   (ensureNodeExists_idempotent_parentless (initState dsScenario2) "Z").2.1 (by decide)⟩

/-! ## Claim C9 — the batch is always ended exactly once -/

theorem bodyOps_no_batch_ops {ds : DS.DataSet} {ops : List CyOp}
    (hb : bodyOps ds = some ops) :
    CyOp.endBatch ∉ ops ∧ CyOp.startBatch ∉ ops := by
  unfold bodyOps at hb
  rcases happ : applyToCytoscape ds with _ | elems <;> rw [happ] at hb
  · exact absurd hb (by simp)
  · have hops : ops = CyOp.collectVS :: CyOp.removeAll :: elems.map CyOp.addElem
        ++ [CyOp.applyVS 0, CyOp.applyVS 1] := by
      injection hb with hb
      exact hb.symm
    subst hops
    constructor <;> simp

/-- Claim C9: every run that begins the batched mutation ends it exactly
once — whether the body completes or an internal error is thrown after
any number of its operations — and `endBatch` is the final operation on
the instance, so the rendering engine is never left with a suspended
redraw after the call returns or throws. -/
theorem batch_balanced (ds : DS.DataSet) (failAt : Option Nat) (trace : List CyOp)
    (threw : Bool) (h : runWithBatch ds failAt = some (trace, threw)) :
    trace.count CyOp.endBatch = 1 ∧ trace.getLast? = some CyOp.endBatch ∧
      trace.count CyOp.startBatch = 1 := by
  unfold runWithBatch at h
  rcases hb : bodyOps ds with _ | ops <;> rw [hb] at h
  · exact absurd h (by simp)
  · obtain ⟨hne, hns⟩ := bodyOps_no_batch_ops hb
    have key : ∀ ops' : List CyOp, CyOp.endBatch ∉ ops' → CyOp.startBatch ∉ ops' →
        (CyOp.startBatch :: ops' ++ [CyOp.endBatch]).count CyOp.endBatch = 1 ∧
        (CyOp.startBatch :: ops' ++ [CyOp.endBatch]).getLast? = some CyOp.endBatch ∧
        (CyOp.startBatch :: ops' ++ [CyOp.endBatch]).count CyOp.startBatch = 1 := by
      intro ops' hne' hns'
      refine ⟨?_, ?_, ?_⟩
      · simp [List.count_cons, List.count_append, List.count_eq_zero.mpr hne']
      · rw [show CyOp.startBatch :: ops' ++ [CyOp.endBatch]
            = (CyOp.startBatch :: ops') ++ [CyOp.endBatch] from rfl]
        exact List.getLast?_concat _
      · simp [List.count_cons, List.count_append, List.count_eq_zero.mpr hns']
    cases failAt with
    | none =>
      injection h with h
      have htr : trace = CyOp.startBatch :: ops ++ [CyOp.endBatch] :=
        (congrArg Prod.fst h).symm
      rw [htr]
      exact key ops hne hns
    | some k =>
      injection h with h
      have htr : trace = CyOp.startBatch :: ops.take k ++ [CyOp.endBatch] :=
        (congrArg Prod.fst h).symm
      rw [htr]
      exact key (ops.take k)
        (fun hmem => hne (List.take_subset k ops hmem))
        (fun hmem => hns (List.take_subset k ops hmem))

/-! ## Claim C5 — reapplication order of the two view states -/

theorem lookupId_map_posUpdate (vs : ViewState) (id : String) :
    ∀ l : List (String × (Int × Int)),
      lookupId id (l.map (fun e =>
        match lookupId e.1 vs.positions with
        | some q => (e.1, q)
        | none => e)) =
      match lookupId id l, lookupId id vs.positions with
      | some _, some q => some q
      | some p, none => some p
      | none, _ => none := by
  intro l
  induction l with
  | nil =>
    cases lookupId id vs.positions <;> simp [lookupId]
  | cons e rest ih =>
    obtain ⟨k₀, p₀⟩ := e
    by_cases hk : k₀ = id
    · subst hk
      rcases hv : lookupId k₀ vs.positions with _ | q <;> simp [lookupId, hv]
    · rcases hv : lookupId k₀ vs.positions with _ | q <;> simp [lookupId, hk, hv, ih]

theorem lookupId_applyViewState (vs : ViewState) (m : VisualState) (id : String) :
    lookupId id (applyViewState vs m).positions =
      match lookupId id m.positions, lookupId id vs.positions with
      | some _, some q => some q
      | some p, none => some p
      | none, _ => none :=
  lookupId_map_posUpdate vs id m.positions

/-- Claim C5: `applyToCytoscape` reapplies view state in a fixed order —
the just-loaded view state first, then the view state captured
immediately before the rebuild on top — so for every node id of the live
model positioned by both view states the pre-reload value wins, and a
node positioned only by the just-loaded state keeps that state's
value. -/
theorem viewState_overlay_wins (justLoaded prior : ViewState) (m : VisualState)
    (id : String) (p₀ p₁ : Int × Int)
    (hm : (lookupId id m.positions).isSome = true) :
    (lookupId id justLoaded.positions = some p₀ →
      lookupId id prior.positions = some p₁ →
      lookupId id (reapplyViewStates justLoaded prior m).positions = some p₁) ∧
    (lookupId id justLoaded.positions = some p₀ →
      lookupId id prior.positions = none →
      lookupId id (reapplyViewStates justLoaded prior m).positions = some p₀) := by
  obtain ⟨p, hp⟩ := Option.isSome_iff_exists.mp hm
  constructor
  · intro hjl hpr
    unfold reapplyViewStates
    rw [lookupId_applyViewState, lookupId_applyViewState, hp, hjl, hpr]
  · intro hjl hpr
    unfold reapplyViewStates
    rw [lookupId_applyViewState, lookupId_applyViewState, hp, hjl, hpr]

/-- Witness for `viewState_overlay_wins` on the concrete demo states:
node `A` is positioned by both view states and ends at the pre-reload
position `(9, 9)`; node `B` is positioned only by the just-loaded state
and ends at `(2, 2)`. -/
theorem viewState_overlay_wins_witness :
    lookupId "A" (reapplyViewStates vsLoaded vsPrior mDemo).positions = some (9, 9) ∧
    lookupId "B" (reapplyViewStates vsLoaded vsPrior mDemo).positions = some (2, 2) :=
  ⟨(viewState_overlay_wins vsLoaded vsPrior mDemo "A" (1, 1) (9, 9) (by decide)).1
      (by decide) (by decide),
   (viewState_overlay_wins vsLoaded vsPrior mDemo "B" (2, 2) (0, 0) (by decide)).2
      (by decide) (by decide)⟩

/-! ## Claim C6 — forest construction in parent-pointer mode -/

theorem keys_setKey {β : Type} (m : List (String × β)) (k : String) (v : β) :
    (StorageUtil.setKey m k v).map Prod.fst =
      if (lookupId k m).isSome then m.map Prod.fst else m.map Prod.fst ++ [k] := by
  induction m with
  | nil => simp [StorageUtil.setKey, lookupId]
  | cons e rest ih =>
    obtain ⟨k₀, w⟩ := e
    by_cases h : k₀ = k
    · simp [StorageUtil.setKey, h, lookupId]
    · simp [StorageUtil.setKey, h, lookupId, ih]
      split <;> simp

theorem buildMap_keys_nodup {T : Type} (getId : T → String) :
    ∀ (items : List T) (acc : List (String × T)),
      (acc.map Prod.fst).Nodup → ((Tree.buildMap getId acc items).map Prod.fst).Nodup := by
  intro items
  induction items with
  | nil => intro acc h; exact h
  | cons it rest ih =>
    intro acc hacc
    show ((Tree.buildMap getId (StorageUtil.setKey acc (getId it) it) rest).map Prod.fst).Nodup
    apply ih
    rw [keys_setKey]
    by_cases h : (lookupId (getId it) acc).isSome
    · simpa [h] using hacc
    · rw [if_neg h]
      have hnot : getId it ∉ acc.map Prod.fst :=
        lookupId_eq_none_iff.mp (Option.not_isSome_iff_eq_none.mp h)
      simp [List.nodup_append, hacc, hnot]

theorem toMapEntries_keys_nodup {T : Type} (items : List T) (getId : T → String) :
    ((Tree.toMapEntries items getId).map Prod.fst).Nodup :=
  buildMap_keys_nodup getId items [] (by simp)

theorem chainDepth_of_unresolved {T : Type} {m : List (String × T)}
    {getParent : T → Option String} {id : String} (fuel : Nat)
    (h : Tree.resolvedParentId m getParent id = none) :
    Tree.chainDepth m getParent fuel id = some 0 := by
  cases fuel <;> simp [Tree.chainDepth, h]

theorem entriesWithDepth_mem {T : Type} {m : List (String × T)}
    {getParent : T → Option String} {id : String} {it : T} {d : Nat} :
    ∀ {l : List (String × T)} {wd : List (String × T × Nat)},
      Tree.entriesWithDepth m getParent l = some wd → (id, it) ∈ l →
      Tree.chainDepth m getParent (m.length + 1) id = some d → (id, it, d) ∈ wd := by
  intro l
  induction l with
  | nil => intro wd _ hmem; cases hmem
  | cons e rest ih =>
    intro wd hwd hmem hd
    obtain ⟨id₀, it₀⟩ := e
    rw [Tree.entriesWithDepth] at hwd
    rcases hd₀ : Tree.chainDepth m getParent (m.length + 1) id₀ with _ | d₀ <;>
      rw [hd₀] at hwd
    · exact absurd (show (none : Option (List (String × T × Nat))) = some wd from hwd)
        (by simp)
    rcases hrest : Tree.entriesWithDepth m getParent rest with _ | wd' <;>
      rw [hrest] at hwd
    · exact absurd (show (none : Option (List (String × T × Nat))) = some wd from hwd)
        (by simp)
    have hwd₁ : some ((id₀, it₀, d₀) :: wd') = some wd := hwd
    injection hwd₁ with hwd₁
    subst hwd₁
    rcases List.mem_cons.mp hmem with heq | htail
    · injection heq with h₁ h₂
      subst h₁
      subst h₂
      rw [hd] at hd₀
      injection hd₀ with hd₀
      subst hd₀
      exact List.mem_cons_self _ _
    · exact List.mem_cons_of_mem _ (ih hrest htail hd)

/-- Claim C6: in parent-pointer mode `toTree` returns exactly the
depth-0 wrapper nodes, and a node whose parent id does not resolve
through the id map becomes a root of depth 0; over the concrete items
`[{id:"1"},{id:"2",parent:"1"},{id:"3",parent:"9"}]` it yields the two
roots `1` and `3` (since `9` is unresolved), with `2` as the depth-1
child of `1`. -/
theorem toTree_unresolved_parent_roots :
    (∀ (T : Type) (items : List T) (getId : T → String) (getParent : T → Option String)
      (result : List (String × T × Nat)),
      Tree.toTree items getId getParent = some result →
      (∃ wd, Tree.entriesWithDepth (Tree.toMapEntries items getId) getParent
          (Tree.toMapEntries items getId) = some wd ∧
        result = wd.filter (fun x => x.2.2 == 0) ∧ ∀ x ∈ result, x.2.2 = 0) ∧
      (∀ id it pid, (id, it) ∈ Tree.toMapEntries items getId → getParent it = some pid →
        lookupId pid (Tree.toMapEntries items getId) = none → (id, it, 0) ∈ result)) ∧
    (Tree.toTree items6 Item.id Item.parent =
        some [("1", ⟨"1", none⟩, 0), ("3", ⟨"3", some "9"⟩, 0)] ∧
      Tree.childrenIds map6 Item.parent "1" = ["2"] ∧
      Tree.chainDepth map6 Item.parent (map6.length + 1) "2" = some 1) := by
  constructor
  · intro T items getId getParent result htree
    rcases hwd : Tree.entriesWithDepth (Tree.toMapEntries items getId) getParent
        (Tree.toMapEntries items getId) with _ | wd <;>
      rw [Tree.toTree, hwd] at htree
    · exact absurd htree (by simp)
    · injection htree with htree
      subst htree
      refine ⟨⟨wd, rfl, rfl, ?_⟩, ?_⟩
      · intro x hx
        have := (List.mem_filter.mp hx).2
        simpa using this
      · intro id it pid hmem hgp hnone
        have hnd := toMapEntries_keys_nodup items getId
        have hlk := lookupId_of_mem_nodup hmem hnd
        have hres : Tree.resolvedParentId (Tree.toMapEntries items getId) getParent id = none := by
          simp [Tree.resolvedParentId, hlk, hgp, hnone]
        have hchain := chainDepth_of_unresolved
          ((Tree.toMapEntries items getId).length + 1) hres
        have := entriesWithDepth_mem hwd hmem hchain
        exact List.mem_filter.mpr ⟨this, by simp⟩
  · refine ⟨by decide, by decide, by decide⟩

/-- Witness for `toTree_unresolved_parent_roots`: over the concrete
items, node `3` with unresolved parent `9` is among the returned
roots with depth 0. -/
theorem toTree_unresolved_parent_roots_witness :
    ("3", (⟨"3", some "9"⟩ : Item), 0) ∈
      [("1", (⟨"1", none⟩ : Item), 0), ("3", (⟨"3", some "9"⟩ : Item), 0)] :=
  (toTree_unresolved_parent_roots.1 Item items6 Item.id Item.parent
      [("1", ⟨"1", none⟩, 0), ("3", ⟨"3", some "9"⟩, 0)] (by decide)).2
    "3" ⟨"3", some "9"⟩ "9" (by decide) (by decide) (by decide)

/-- Witness for `batch_balanced`: a run over the second scenario that
throws after two body operations still produces a trace with exactly one
`endBatch`, as its final operation. -/
theorem batch_balanced_witness :
    [CyOp.startBatch, CyOp.collectVS, CyOp.removeAll, CyOp.endBatch].count CyOp.endBatch = 1 ∧
    [CyOp.startBatch, CyOp.collectVS, CyOp.removeAll,
      CyOp.endBatch].getLast? = some CyOp.endBatch ∧
    [CyOp.startBatch, CyOp.collectVS, CyOp.removeAll,
      CyOp.endBatch].count CyOp.startBatch = 1 :=
  batch_balanced dsScenario2 (some 2)
    [CyOp.startBatch, CyOp.collectVS, CyOp.removeAll, CyOp.endBatch] true (by decide)

/-! ## Claim C4 — termination of the parent-chain depth walk -/

theorem pnextIter_add (nodes : List (String × DS.Node)) :
    ∀ (a b : Nat) (p : String),
      pnextIter nodes (a + b) p =
        match pnextIter nodes a p with
        | none => none
        | some q => pnextIter nodes b q := by
  intro a
  induction a with
  | zero =>
    intro b p
    simp [pnextIter]
  | succ a ih =>
    intro b p
    rw [show a + 1 + b = (a + b) + 1 from by omega]
    rw [pnextIter, pnextIter]
    rcases hp : pnext nodes p with _ | q
    · rfl
    · exact ih b q

theorem mem_keys_of_pnext {nodes : List (String × DS.Node)} {p q : String}
    (h : pnext nodes p = some q) : p ∈ nodes.map Prod.fst := by
  unfold pnext at h
  rcases hl : lookupId p nodes with _ | n <;> rw [hl] at h
  · exact absurd h (by simp)
  · exact mem_keys_of_lookupId hl

theorem depthFrom_none_iter {nodes : List (String × DS.Node)} :
    ∀ {fuel : Nat} {pid : Option String} {acc : Nat},
      depthFrom nodes fuel pid acc = none →
      ∃ p, pid = some p ∧ p ≠ "" ∧ ∀ k, k ≤ fuel → (pnextIter nodes k p).isSome = true := by
  intro fuel
  induction fuel with
  | zero =>
    intro pid acc h
    rcases pid with _ | p
    · exact absurd h (by simp [depthFrom])
    by_cases hp : p = ""
    · rw [depthFrom, if_pos hp] at h
      exact absurd h (by simp)
    · refine ⟨p, rfl, hp, ?_⟩
      intro k hk
      interval_cases k
      simp [pnextIter]
  | succ fuel ih =>
    intro pid acc h
    rcases pid with _ | p
    · exact absurd h (by simp [depthFrom])
    by_cases hp : p = ""
    · rw [depthFrom, if_pos hp] at h
      exact absurd h (by simp)
    rw [depthFrom, if_neg hp] at h
    rcases hl : lookupId p nodes with _ | n <;> rw [hl] at h
    · exact absurd h (by simp)
    obtain ⟨q, hq, hq', hiter⟩ := ih h
    have hpq : pnext nodes p = some q := by
      simp [pnext, hl, hq, hq']
    refine ⟨p, rfl, hp, ?_⟩
    intro k hk
    cases k with
    | zero => simp [pnextIter]
    | succ j =>
      rw [pnextIter, hpq]
      exact hiter j (by omega)

theorem depthFrom_total_of_noCycle (nodes : List (String × DS.Node))
    (h : noCycle nodes) (pid : Option String) (acc : Nat) :
    (depthFrom nodes (nodes.length + 1) pid acc).isSome = true := by
  by_contra hns
  have hnone : depthFrom nodes (nodes.length + 1) pid acc = none :=
    Option.not_isSome_iff_eq_none.mp hns
  obtain ⟨p, -, -, hiter⟩ := depthFrom_none_iter hnone
  set N := nodes.length with hN
  have hval : ∀ k, k ≤ N + 1 → ∃ q, pnextIter nodes k p = some q := by
    intro k hk
    exact Option.isSome_iff_exists.mp (hiter k hk)
  set f : Nat → String := fun k => (pnextIter nodes k p).getD "" with hf
  have hmaps : ∀ k ∈ Finset.range (N + 1), f k ∈ (nodes.map Prod.fst).toFinset := by
    intro k hk
    have hkN : k ≤ N := by
      have := Finset.mem_range.mp hk
      omega
    obtain ⟨q, hq⟩ := hval k (by omega)
    obtain ⟨r, hr⟩ := hval (k + 1) (by omega)
    rw [pnextIter_add nodes k 1, hq] at hr
    have hr1 : (match pnext nodes q with
        | none => none
        | some w => pnextIter nodes 0 w) = some r := hr
    have hr' : pnext nodes q = some r := by
      rcases hx : pnext nodes q with _ | x <;> rw [hx] at hr1
      · exact absurd hr1 (by simp)
      · exact hr1
    have : q ∈ nodes.map Prod.fst := mem_keys_of_pnext hr'
    rw [hf]
    simp only [hq, Option.getD_some]
    exact List.mem_toFinset.mpr this
  have hcard : ((nodes.map Prod.fst).toFinset).card < (Finset.range (N + 1)).card := by
    have h₁ : ((nodes.map Prod.fst).toFinset).card ≤ (nodes.map Prod.fst).length :=
      (nodes.map Prod.fst).toFinset_card_le
    simp only [Finset.card_range, List.length_map] at h₁ ⊢
    omega
  obtain ⟨i, hi, j, hj, hij, hfij⟩ :=
    Finset.exists_ne_map_eq_of_card_lt_of_maps_to hcard hmaps
  have key : ∀ a b : Nat, a < b → b ≤ N → f a = f b → False := by
    intro a b hab hbN hfab
    obtain ⟨qa, hqa⟩ := hval a (by omega)
    obtain ⟨qb, hqb⟩ := hval b (by omega)
    have hq : qa = qb := by
      have := hfab
      rw [hf] at this
      simp only [hqa, hqb, Option.getD_some] at this
      exact this
    subst hq
    have hiterQ : pnextIter nodes (b - a) qa = some qa := by
      have := pnextIter_add nodes a (b - a) p
      rw [show a + (b - a) = b from by omega, hqb, hqa] at this
      exact this.symm
    have hmem : qa ∈ nodes.map Prod.fst := by
      have := hmaps a (Finset.mem_range.mpr (by omega))
      rw [hf] at this
      simp only [hqa, Option.getD_some] at this
      exact List.mem_toFinset.mp this
    have hk : b - a - 1 < nodes.length := by omega
    have := h qa hmem (b - a - 1) hk
    rw [show b - a - 1 + 1 = b - a from by omega] at this
    exact this hiterQ
  have hiN : i ≤ N := by
    have := Finset.mem_range.mp hi
    omega
  have hjN : j ≤ N := by
    have := Finset.mem_range.mp hj
    omega
  rcases Nat.lt_or_ge i j with hlt | hge
  · exact key i j hlt hjN hfij
  · have hlt : j < i := by omega
    exact key j i hlt hiN hfij.symm

theorem withDepths_total {nodes : List (String × DS.Node)}
    (h : ∀ pid acc, (depthFrom nodes (nodes.length + 1) pid acc).isSome = true) :
    ∀ l : List (String × DS.Node), (withDepths nodes l).isSome = true := by
  intro l
  induction l with
  | nil => simp [withDepths]
  | cons e rest ih =>
    obtain ⟨id, node⟩ := e
    obtain ⟨d, hd⟩ := Option.isSome_iff_exists.mp (h node.parent 0)
    obtain ⟨l', hl'⟩ := Option.isSome_iff_exists.mp ih
    rw [withDepths, hd, hl']
    simp

/-- Claim C4: the parent-chain depth walk of `applyToCytoscape`
terminates for every data set whose parent references form no cycle
(fuel `nodes.length + 1` always suffices, so the whole rebuild is
defined), and on the concrete self-referential chain `cycNodes` it does
not terminate: the walk exhausts any amount of fuel, because the loop
has no cycle guard. -/
theorem depth_walk_termination :
    (∀ ds : DS.DataSet, noCycle ds.nodes → (applyToCytoscape ds).isSome = true) ∧
    (∀ fuel acc, depthFrom cycNodes fuel (some "A") acc = none) := by
  constructor
  · intro ds hnc
    have htot := withDepths_total (depthFrom_total_of_noCycle ds.nodes hnc) ds.nodes
    obtain ⟨nwd, hnwd⟩ := Option.isSome_iff_exists.mp htot
    rw [applyToCytoscape, hnwd]
    simp
  · intro fuel
    induction fuel with
    | zero =>
      intro acc
      simp [depthFrom]
    | succ fuel ih =>
      intro acc
      rw [show depthFrom cycNodes (fuel + 1) (some "A") acc
          = depthFrom cycNodes fuel (some "A") (acc + 1) from by
        simp [depthFrom, cycNodes, lookupId]]
      exact ih (acc + 1)

/-- Witness for `depth_walk_termination`: the first scenario's node map
is cycle-free, so its rebuild is defined. -/
theorem depth_walk_termination_witness :
    (applyToCytoscape dsScenario1).isSome = true :=
  depth_walk_termination.1 dsScenario1 (by decide)

/-! ## Structural lemmas about the synchronization state -/

theorem hasNodeElem_append {l t : List CyElement} {id : String}
    (h : hasNodeElem l id) : hasNodeElem (l ++ t) id := by
  obtain ⟨lbl, pr, hm⟩ := h
  exact ⟨lbl, pr, List.mem_append_left t hm⟩

theorem ensure_elements_append (s : SyncState) (i : String) :
    ∃ t, (ensureNodeExists s i).elements = s.elements ++ t := by
  by_cases h : i ∈ s.nodeIds
  · exact ⟨[], by simp [ensureNodeExists, h]⟩
  · exact ⟨[CyElement.node i i none], by simp [ensureNodeExists, h]⟩

theorem ensure_nodeIds_mono {s : SyncState} {j : String} (i : String)
    (h : j ∈ s.nodeIds) : j ∈ (ensureNodeExists s i).nodeIds := by
  by_cases hm : i ∈ s.nodeIds <;> simp [ensureNodeExists, hm, h]

theorem ensure_mem_self (s : SyncState) (i : String) :
    i ∈ (ensureNodeExists s i).nodeIds := by
  by_cases hm : i ∈ s.nodeIds <;> simp [ensureNodeExists, hm]

theorem ensure_nodeIds_cases {s : SyncState} {i j : String}
    (h : j ∈ (ensureNodeExists s i).nodeIds) :
    j ∈ s.nodeIds ∨ (j = i ∧ CyElement.node i i none ∈ (ensureNodeExists s i).elements) := by
  by_cases hm : i ∈ s.nodeIds
  · left
    simpa [ensureNodeExists, hm] using h
  · simp only [ensureNodeExists, hm, if_neg, ite_false, List.mem_cons] at h
    rcases h with rfl | h
    · right
      exact ⟨rfl, by simp [ensureNodeExists, hm]⟩
    · left
      exact h

theorem ensureParent_eq_skip {s : SyncState} {n : DS.Node}
    (hn : n.parent = none ∨ n.parent = some "") : ensureParent s n = s := by
  rcases hn with hn | hn <;> simp [ensureParent, hn]

theorem ensureParent_eq_ensure {s : SyncState} {n : DS.Node} {p : String}
    (hn : n.parent = some p) (hp : p ≠ "") :
    ensureParent s n = ensureNodeExists s p := by
  simp [ensureParent, hn, hp]

theorem ensureParent_elements_append (s : SyncState) (n : DS.Node) :
    ∃ t, (ensureParent s n).elements = s.elements ++ t := by
  rcases hn : n.parent with _ | p
  · rw [ensureParent_eq_skip (Or.inl hn)]
    exact ⟨[], by simp⟩
  · by_cases hp : p = ""
    · subst hp
      rw [ensureParent_eq_skip (Or.inr hn)]
      exact ⟨[], by simp⟩
    · rw [ensureParent_eq_ensure hn hp]
      exact ensure_elements_append s p

theorem ensureParent_nodeIds_mono {s : SyncState} {j : String} (n : DS.Node)
    (h : j ∈ s.nodeIds) : j ∈ (ensureParent s n).nodeIds := by
  rcases hn : n.parent with _ | p
  · rw [ensureParent_eq_skip (Or.inl hn)]
    exact h
  · by_cases hp : p = ""
    · subst hp
      rw [ensureParent_eq_skip (Or.inr hn)]
      exact h
    · rw [ensureParent_eq_ensure hn hp]
      exact ensure_nodeIds_mono p h

theorem ensureParent_nodeIds_cases {s : SyncState} {n : DS.Node} {j : String}
    (h : j ∈ (ensureParent s n).nodeIds) :
    j ∈ s.nodeIds ∨ CyElement.node j j none ∈ (ensureParent s n).elements := by
  rcases hn : n.parent with _ | p
  · rw [ensureParent_eq_skip (Or.inl hn)] at h
    exact Or.inl h
  · by_cases hp : p = ""
    · subst hp
      rw [ensureParent_eq_skip (Or.inr hn)] at h
      exact Or.inl h
    · rw [ensureParent_eq_ensure hn hp] at h ⊢
      rcases ensure_nodeIds_cases h with hs | ⟨rfl, hm⟩
      · exact Or.inl hs
      · exact Or.inr hm

theorem addDataNode_elements (s : SyncState) (i : String) (n : DS.Node) :
    ∃ t, (addDataNode s i n).elements =
      s.elements ++ t ++ [CyElement.node i n.label n.parent] := by
  obtain ⟨t, ht⟩ := ensureParent_elements_append s n
  exact ⟨t, by simp [addDataNode, ht]⟩

theorem addDataNode_nodeIds (s : SyncState) (i : String) (n : DS.Node) :
    (addDataNode s i n).nodeIds = (ensureParent s n).nodeIds := rfl

theorem addDataNode_self (s : SyncState) (i : String) (n : DS.Node) :
    hasNodeElem (addDataNode s i n).elements i :=
  ⟨n.label, n.parent, by simp [addDataNode]⟩

theorem addDataNode_hasNode_mono {s : SyncState} {j : String} (i : String) (n : DS.Node)
    (h : hasNodeElem s.elements j) : hasNodeElem (addDataNode s i n).elements j := by
  obtain ⟨t, ht⟩ := ensureParent_elements_append s n
  show hasNodeElem ((ensureParent s n).elements ++ _) j
  rw [ht, List.append_assoc]
  exact hasNodeElem_append h

theorem addDataNode_nodeIds_cases {s : SyncState} {i j : String} {n : DS.Node}
    (h : j ∈ (addDataNode s i n).nodeIds) :
    j ∈ s.nodeIds ∨ hasNodeElem (addDataNode s i n).elements j := by
  rw [addDataNode_nodeIds] at h
  rcases ensureParent_nodeIds_cases h with hs | hm
  · exact Or.inl hs
  · right
    exact hasNodeElem_append ⟨j, none, hm⟩

theorem addEdge_nodeIds (s : SyncState) (e : DS.Edge) :
    (addEdge s e).nodeIds = (ensureNodeExists (ensureNodeExists s e.source) e.target).nodeIds :=
  rfl

theorem addEdge_elements_append (s : SyncState) (e : DS.Edge) :
    ∃ t, (addEdge s e).elements = s.elements ++ t := by
  obtain ⟨t₁, h₁⟩ := ensure_elements_append s e.source
  obtain ⟨t₂, h₂⟩ := ensure_elements_append (ensureNodeExists s e.source) e.target
  refine ⟨t₁ ++ t₂ ++ [CyElement.edge (ensureNodeExists (ensureNodeExists s e.source)
    e.target).nextEdgeId e.source e.target e.label], ?_⟩
  show (ensureNodeExists (ensureNodeExists s e.source) e.target).elements ++ _ = _
  rw [h₂, h₁]
  simp

theorem addEdge_nodeIds_mono {s : SyncState} {j : String} (e : DS.Edge)
    (h : j ∈ s.nodeIds) : j ∈ (addEdge s e).nodeIds := by
  rw [addEdge_nodeIds]
  exact ensure_nodeIds_mono e.target (ensure_nodeIds_mono e.source h)

theorem addEdge_mem_endpoints (s : SyncState) (e : DS.Edge) :
    e.source ∈ (addEdge s e).nodeIds ∧ e.target ∈ (addEdge s e).nodeIds := by
  rw [addEdge_nodeIds]
  exact ⟨ensure_nodeIds_mono e.target (ensure_mem_self s e.source),
    ensure_mem_self (ensureNodeExists s e.source) e.target⟩

theorem addEdge_nodeIds_cases {s : SyncState} {j : String} {e : DS.Edge}
    (h : j ∈ (addEdge s e).nodeIds) :
    j ∈ s.nodeIds ∨ hasNodeElem (addEdge s e).elements j := by
  rw [addEdge_nodeIds] at h
  obtain ⟨t₂, h₂⟩ := ensure_elements_append (ensureNodeExists s e.source) e.target
  rcases ensure_nodeIds_cases h with h' | ⟨rfl, hm⟩
  · rcases ensure_nodeIds_cases h' with h'' | ⟨rfl, hm⟩
    · exact Or.inl h''
    · right
      refine ⟨e.source, none, ?_⟩
      show _ ∈ (ensureNodeExists (ensureNodeExists s e.source) e.target).elements ++ _
      rw [h₂]
      exact List.mem_append_left _ (List.mem_append_left _ hm)
  · right
    refine ⟨e.target, none, ?_⟩
    show _ ∈ (ensureNodeExists (ensureNodeExists s e.source) e.target).elements ++ _
    exact List.mem_append_left _ hm

theorem nodePhase_elements_append :
    ∀ (L : List (String × DS.Node × Nat)) (s : SyncState),
      ∃ t, (nodePhase s L).elements = s.elements ++ t := by
  intro L
  induction L with
  | nil => exact fun s => ⟨[], by simp [nodePhase]⟩
  | cons e rest ih =>
    intro s
    obtain ⟨id, n, d⟩ := e
    obtain ⟨t₁, h₁⟩ := addDataNode_elements s id n
    obtain ⟨t₂, h₂⟩ := ih (addDataNode s id n)
    refine ⟨t₁ ++ [CyElement.node id n.label n.parent] ++ t₂, ?_⟩
    show (nodePhase (addDataNode s id n) rest).elements = _
    rw [h₂, h₁]
    simp

theorem nodePhase_nodeIds_mono :
    ∀ (L : List (String × DS.Node × Nat)) (s : SyncState) (j : String),
      j ∈ s.nodeIds → j ∈ (nodePhase s L).nodeIds := by
  intro L
  induction L with
  | nil => exact fun s j h => h
  | cons e rest ih =>
    intro s j h
    obtain ⟨id, n, d⟩ := e
    show j ∈ (nodePhase (addDataNode s id n) rest).nodeIds
    apply ih
    rw [addDataNode_nodeIds]
    exact ensureParent_nodeIds_mono n h

theorem edgePhase_elements_append :
    ∀ (E : List DS.Edge) (s : SyncState),
      ∃ t, (edgePhase s E).elements = s.elements ++ t := by
  intro E
  induction E with
  | nil => exact fun s => ⟨[], by simp [edgePhase]⟩
  | cons e rest ih =>
    intro s
    obtain ⟨t₁, h₁⟩ := addEdge_elements_append s e
    obtain ⟨t₂, h₂⟩ := ih (addEdge s e)
    refine ⟨t₁ ++ t₂, ?_⟩
    show (edgePhase (addEdge s e) rest).elements = _
    rw [h₂, h₁]
    simp

theorem edgePhase_nodeIds_mono :
    ∀ (E : List DS.Edge) (s : SyncState) (j : String),
      j ∈ s.nodeIds → j ∈ (edgePhase s E).nodeIds := by
  intro E
  induction E with
  | nil => exact fun s j h => h
  | cons e rest ih =>
    intro s j h
    exact ih (addEdge s e) j (addEdge_nodeIds_mono e h)

theorem edgePhase_endpoints_mem :
    ∀ (E : List DS.Edge) (s : SyncState) (e : DS.Edge), e ∈ E →
      e.source ∈ (edgePhase s E).nodeIds ∧ e.target ∈ (edgePhase s E).nodeIds := by
  intro E
  induction E with
  | nil =>
    intro s e h
    cases h
  | cons e₀ rest ih =>
    intro s e h
    rcases List.mem_cons.mp h with rfl | htail
    · obtain ⟨hs, ht⟩ := addEdge_mem_endpoints s e
      exact ⟨edgePhase_nodeIds_mono rest _ _ hs, edgePhase_nodeIds_mono rest _ _ ht⟩
    · exact ih (addEdge s e₀) e htail

/-! ## Coverage invariants: every known id has a node element -/

theorem nodePhase_covers :
    ∀ (L : List (String × DS.Node × Nat)) (s : SyncState),
      (∀ id ∈ s.nodeIds, hasNodeElem s.elements id ∨ id ∈ L.map Prod.fst) →
      ∀ id ∈ (nodePhase s L).nodeIds, hasNodeElem (nodePhase s L).elements id := by
  intro L
  induction L with
  | nil =>
    intro s hpre id hid
    rcases hpre id hid with h | h
    · exact h
    · cases h
  | cons e rest ih =>
    intro s hpre
    obtain ⟨nid, nd, d⟩ := e
    show ∀ id ∈ (nodePhase (addDataNode s nid nd) rest).nodeIds,
      hasNodeElem (nodePhase (addDataNode s nid nd) rest).elements id
    apply ih
    intro id hid
    rcases addDataNode_nodeIds_cases hid with hs | hnew
    · rcases hpre id hs with hhad | hpend
      · exact Or.inl (addDataNode_hasNode_mono nid nd hhad)
      · rcases List.mem_cons.mp hpend with rfl | htail
        · exact Or.inl (addDataNode_self s id nd)
        · exact Or.inr htail
    · exact Or.inl hnew

theorem edgePhase_covers :
    ∀ (E : List DS.Edge) (s : SyncState),
      (∀ id ∈ s.nodeIds, hasNodeElem s.elements id) →
      ∀ id ∈ (edgePhase s E).nodeIds, hasNodeElem (edgePhase s E).elements id := by
  intro E
  induction E with
  | nil => exact fun s hpre => hpre
  | cons e rest ih =>
    intro s hpre
    apply ih
    intro id hid
    rcases addEdge_nodeIds_cases hid with hs | hnew
    · obtain ⟨t, ht⟩ := addEdge_elements_append s e
      rw [ht]
      exact hasNodeElem_append (hpre id hs)
    · exact hnew

/-! ## Placeholder-shape invariant: an id outside the data set's keys only
ever gets the parentless placeholder element labelled by itself -/

theorem ensure_placeholder_inv {keys : List String} {s : SyncState}
    (hpre : ∀ id ∈ s.nodeIds, id ∈ keys ∨ CyElement.node id id none ∈ s.elements)
    (i : String) :
    ∀ id ∈ (ensureNodeExists s i).nodeIds,
      id ∈ keys ∨ CyElement.node id id none ∈ (ensureNodeExists s i).elements := by
  intro id hid
  obtain ⟨t, ht⟩ := ensure_elements_append s i
  rcases ensure_nodeIds_cases hid with hs | ⟨rfl, hm⟩
  · rcases hpre id hs with hk | hp
    · exact Or.inl hk
    · right
      rw [ht]
      exact List.mem_append_left t hp
  · exact Or.inr hm

theorem ensureParent_placeholder_inv {keys : List String} {s : SyncState}
    (hpre : ∀ id ∈ s.nodeIds, id ∈ keys ∨ CyElement.node id id none ∈ s.elements)
    (n : DS.Node) :
    ∀ id ∈ (ensureParent s n).nodeIds,
      id ∈ keys ∨ CyElement.node id id none ∈ (ensureParent s n).elements := by
  rcases hn : n.parent with _ | p
  · rw [ensureParent_eq_skip (Or.inl hn)]
    exact hpre
  · by_cases hp : p = ""
    · subst hp
      rw [ensureParent_eq_skip (Or.inr hn)]
      exact hpre
    · rw [ensureParent_eq_ensure hn hp]
      exact ensure_placeholder_inv hpre p

theorem addDataNode_placeholder_inv {keys : List String} {s : SyncState}
    (hpre : ∀ id ∈ s.nodeIds, id ∈ keys ∨ CyElement.node id id none ∈ s.elements)
    (i : String) (n : DS.Node) :
    ∀ id ∈ (addDataNode s i n).nodeIds,
      id ∈ keys ∨ CyElement.node id id none ∈ (addDataNode s i n).elements := by
  intro id hid
  rw [addDataNode_nodeIds] at hid
  rcases ensureParent_placeholder_inv hpre n id hid with hk | hp
  · exact Or.inl hk
  · right
    show _ ∈ (ensureParent s n).elements ++ _
    exact List.mem_append_left _ hp

theorem addEdge_placeholder_inv {keys : List String} {s : SyncState}
    (hpre : ∀ id ∈ s.nodeIds, id ∈ keys ∨ CyElement.node id id none ∈ s.elements)
    (e : DS.Edge) :
    ∀ id ∈ (addEdge s e).nodeIds,
      id ∈ keys ∨ CyElement.node id id none ∈ (addEdge s e).elements := by
  intro id hid
  rw [addEdge_nodeIds] at hid
  have h₁ := ensure_placeholder_inv (ensure_placeholder_inv hpre e.source) e.target id hid
  rcases h₁ with hk | hp
  · exact Or.inl hk
  · right
    show _ ∈ (ensureNodeExists (ensureNodeExists s e.source) e.target).elements ++ _
    exact List.mem_append_left _ hp

theorem nodePhase_placeholder_inv :
    ∀ (L : List (String × DS.Node × Nat)) (keys : List String) (s : SyncState),
      (∀ id ∈ s.nodeIds, id ∈ keys ∨ CyElement.node id id none ∈ s.elements) →
      ∀ id ∈ (nodePhase s L).nodeIds,
        id ∈ keys ∨ CyElement.node id id none ∈ (nodePhase s L).elements := by
  intro L
  induction L with
  | nil => exact fun keys s hpre => hpre
  | cons e rest ih =>
    intro keys s hpre
    obtain ⟨nid, nd, d⟩ := e
    exact ih keys (addDataNode s nid nd) (addDataNode_placeholder_inv hpre nid nd)

theorem edgePhase_placeholder_inv :
    ∀ (E : List DS.Edge) (keys : List String) (s : SyncState),
      (∀ id ∈ s.nodeIds, id ∈ keys ∨ CyElement.node id id none ∈ s.elements) →
      ∀ id ∈ (edgePhase s E).nodeIds,
        id ∈ keys ∨ CyElement.node id id none ∈ (edgePhase s E).elements := by
  intro E
  induction E with
  | nil => exact fun keys s hpre => hpre
  | cons e rest ih =>
    intro keys s hpre
    exact ih keys (addEdge s e) (addEdge_placeholder_inv hpre e)

/-! ## The stable sort and the annotated node list -/

theorem insertByDepth_perm (x : String × DS.Node × Nat) :
    ∀ l : List (String × DS.Node × Nat), List.Perm (insertByDepth x l) (x :: l) := by
  intro l
  induction l with
  | nil => rfl
  | cons y rest ih =>
    rw [insertByDepth]
    by_cases h : x.2.2 ≤ y.2.2
    · rw [if_pos h]
    · rw [if_neg h]
      exact Trans.trans (List.Perm.cons y ih) (List.Perm.swap x y rest)

theorem sortByDepth_perm : ∀ l : List (String × DS.Node × Nat), List.Perm (sortByDepth l) l := by
  intro l
  induction l with
  | nil => rfl
  | cons x rest ih =>
    rw [sortByDepth]
    exact Trans.trans (insertByDepth_perm x (sortByDepth rest)) (List.Perm.cons x ih)

theorem withDepths_keys {nodes : List (String × DS.Node)} :
    ∀ {l : List (String × DS.Node)} {r : List (String × DS.Node × Nat)},
      withDepths nodes l = some r → r.map Prod.fst = l.map Prod.fst := by
  intro l
  induction l with
  | nil =>
    intro r h
    have h' : some ([] : List (String × DS.Node × Nat)) = some r := h
    injection h' with h'
    subst h'
    rfl
  | cons e rest ih =>
    intro r h
    obtain ⟨id, node⟩ := e
    rw [withDepths] at h
    rcases hd : depthFrom nodes (nodes.length + 1) node.parent 0 with _ | d <;> rw [hd] at h
    · exact absurd (show (none : Option (List (String × DS.Node × Nat))) = some r from h)
        (by simp)
    rcases hrest : withDepths nodes rest with _ | r' <;> rw [hrest] at h
    · exact absurd (show (none : Option (List (String × DS.Node × Nat))) = some r from h)
        (by simp)
    have h' : some ((id, node, d) :: r') = some r := h
    injection h' with h'
    subst h'
    simp [ih hrest]

/-! ## Claim C2 — no dangling edge endpoints survive synchronization -/

/-- Claim C2: after a successful rebuild, every edge's source and target
identifier has a node element in the insertion log; an endpoint absent
from the input data set's keys is present as a synthesized placeholder
node whose label is the identifier itself and whose parent is absent. -/
theorem edges_endpoints_exist (ds : DS.DataSet) (elems : List CyElement)
    (happ : applyToCytoscape ds = some elems) :
    ∀ e ∈ ds.edges,
      (hasNodeElem elems e.source ∧ hasNodeElem elems e.target) ∧
      (e.source ∉ ds.nodes.map Prod.fst →
        CyElement.node e.source e.source none ∈ elems) ∧
      (e.target ∉ ds.nodes.map Prod.fst →
        CyElement.node e.target e.target none ∈ elems) := by
  intro e he
  rw [applyToCytoscape] at happ
  rcases hwd : withDepths ds.nodes ds.nodes with _ | nwd <;> rw [hwd] at happ
  · exact absurd (show (none : Option (List CyElement)) = some elems from happ) (by simp)
  have helems : (edgePhase (nodePhase (initState ds) (sortByDepth nwd)) ds.edges).elements
      = elems := by
    injection happ
  set s₁ := nodePhase (initState ds) (sortByDepth nwd) with hs₁
  set s₂ := edgePhase s₁ ds.edges with hs₂
  have hkeys : List.Perm ((sortByDepth nwd).map Prod.fst) (ds.nodes.map Prod.fst) := by
    rw [← withDepths_keys hwd]
    exact (sortByDepth_perm nwd).map Prod.fst
  have hcov₁ : ∀ id ∈ s₁.nodeIds, hasNodeElem s₁.elements id := by
    apply nodePhase_covers
    intro id hid
    right
    exact hkeys.mem_iff.mpr hid
  have hcov₂ : ∀ id ∈ s₂.nodeIds, hasNodeElem s₂.elements id :=
    edgePhase_covers ds.edges s₁ hcov₁
  have hph : ∀ id ∈ s₂.nodeIds,
      id ∈ ds.nodes.map Prod.fst ∨ CyElement.node id id none ∈ s₂.elements := by
    apply edgePhase_placeholder_inv
    apply nodePhase_placeholder_inv
    intro id hid
    exact Or.inl hid
  obtain ⟨hsrc, htgt⟩ := edgePhase_endpoints_mem ds.edges s₁ e he
  rw [← hs₂] at hsrc htgt
  refine ⟨⟨?_, ?_⟩, ?_, ?_⟩
  · rw [← helems]
    exact hcov₂ e.source hsrc
  · rw [← helems]
    exact hcov₂ e.target htgt
  · intro hnot
    rcases hph e.source hsrc with hk | hp
    · exact absurd hk hnot
    · rw [← helems]
      exact hp
  · intro hnot
    rcases hph e.target htgt with hk | hp
    · exact absurd hk hnot
    · rw [← helems]
      exact hp

/-- Witness for `edges_endpoints_exist` at the unknown-endpoint scenario:
the edge to the unknown id `Z` yields a synthesized placeholder node with
id `Z` and label `Z`. -/
theorem edges_endpoints_exist_witness :
    CyElement.node "Z" "Z" none ∈
      [CyElement.node "A" "A" none, CyElement.node "Z" "Z" none,
        CyElement.edge 0 "A" "Z" "e"] :=
  (edges_endpoints_exist dsScenario2
      [CyElement.node "A" "A" none, CyElement.node "Z" "Z" none,
        CyElement.edge 0 "A" "Z" "e"]
      (by decide) ⟨"A", "Z", "e"⟩ (by decide)).2.2 (by decide)

/-! ## Arithmetic of the depth walk -/

theorem depthFrom_arg_none (nodes : List (String × DS.Node)) (fuel acc : Nat) :
    depthFrom nodes fuel (some "") acc = some acc := by
  cases fuel <;> simp [depthFrom]

theorem depthFrom_of_missing {nodes : List (String × DS.Node)} {p : String}
    (acc fuel : Nat) (hp : p ≠ "") (hl : lookupId p nodes = none) :
    depthFrom nodes (fuel + 1) (some p) acc = some acc := by
  simp [depthFrom, hp, hl]

theorem depthFrom_of_found {nodes : List (String × DS.Node)} {p : String} {n : DS.Node}
    (acc fuel : Nat) (hp : p ≠ "") (hl : lookupId p nodes = some n) :
    depthFrom nodes (fuel + 1) (some p) acc = depthFrom nodes fuel n.parent (acc + 1) := by
  simp [depthFrom, hp, hl]

theorem depthFrom_acc (nodes : List (String × DS.Node)) :
    ∀ (fuel : Nat) (pid : Option String) (acc : Nat),
      depthFrom nodes fuel pid acc = (depthFrom nodes fuel pid 0).map (· + acc) := by
  intro fuel
  induction fuel with
  | zero =>
    intro pid acc
    rcases pid with _ | p
    · simp [depthFrom]
    · by_cases hp : p = ""
      · subst hp
        simp [depthFrom_arg_none]
      · simp [depthFrom, hp]
  | succ fuel ih =>
    intro pid acc
    rcases pid with _ | p
    · simp [depthFrom]
    · by_cases hp : p = ""
      · subst hp
        simp [depthFrom_arg_none]
      · rcases hl : lookupId p nodes with _ | n
        · rw [depthFrom_of_missing acc fuel hp hl, depthFrom_of_missing 0 fuel hp hl]
          simp
        · rw [depthFrom_of_found acc fuel hp hl, depthFrom_of_found 0 fuel hp hl,
            ih n.parent (acc + 1), ih n.parent (0 + 1)]
          cases hdd : depthFrom nodes fuel n.parent 0 with
          | none => simp
          | some d =>
            simp only [Option.map_some']
            congr 1
            omega

theorem depthFrom_mono (nodes : List (String × DS.Node)) :
    ∀ (fuel : Nat) (pid : Option String) (acc d : Nat),
      depthFrom nodes fuel pid acc = some d →
      depthFrom nodes (fuel + 1) pid acc = some d := by
  intro fuel
  induction fuel with
  | zero =>
    intro pid acc d h
    rcases pid with _ | p
    · simpa [depthFrom] using h
    · by_cases hp : p = ""
      · subst hp
        rw [depthFrom_arg_none] at h
        rw [depthFrom_arg_none]
        exact h
      · exact absurd h (by simp [depthFrom, hp])
  | succ fuel ih =>
    intro pid acc d h
    rcases pid with _ | p
    · simpa [depthFrom] using h
    · by_cases hp : p = ""
      · subst hp
        rw [depthFrom_arg_none] at h
        rw [depthFrom_arg_none]
        exact h
      · rcases hl : lookupId p nodes with _ | n
        · rw [depthFrom_of_missing acc fuel hp hl] at h
          rw [depthFrom_of_missing acc (fuel + 1) hp hl]
          exact h
        · rw [depthFrom_of_found acc fuel hp hl] at h
          rw [depthFrom_of_found acc (fuel + 1) hp hl]
          exact ih n.parent (acc + 1) d h

theorem depth_child_succ {nodes : List (String × DS.Node)} {p : String} {pn : DS.Node}
    {dc : Nat} (hp : p ≠ "") (hl : lookupId p nodes = some pn)
    (hc : depthFrom nodes (nodes.length + 1) (some p) 0 = some dc) :
    ∃ dp, depthFrom nodes (nodes.length + 1) pn.parent 0 = some dp ∧ dc = dp + 1 := by
  rw [depthFrom_of_found 0 nodes.length hp hl,
    depthFrom_acc nodes nodes.length pn.parent (0 + 1)] at hc
  cases hdd : depthFrom nodes nodes.length pn.parent 0 with
  | none =>
    rw [hdd] at hc
    exact absurd hc (by simp)
  | some dp =>
    rw [hdd] at hc
    simp only [Option.map_some'] at hc
    injection hc with hc
    exact ⟨dp, depthFrom_mono nodes nodes.length pn.parent 0 dp hdd, by omega⟩

/-! ## Pointwise and split lemmas for the annotated node list -/

theorem mem_of_lookupId {β : Type} {k : String} {v : β} {l : List (String × β)}
    (h : lookupId k l = some v) : (k, v) ∈ l := by
  induction l with
  | nil => exact absurd h (by simp [lookupId])
  | cons e rest ih =>
    obtain ⟨k₀, w⟩ := e
    by_cases hk : k₀ = k
    · subst hk
      rw [lookupId, if_pos rfl] at h
      injection h with h
      subst h
      exact List.mem_cons_self _ _
    · rw [lookupId, if_neg hk] at h
      exact List.mem_cons_of_mem _ (ih h)

theorem withDepths_mem {nodes : List (String × DS.Node)} :
    ∀ {l : List (String × DS.Node)} {r : List (String × DS.Node × Nat)},
      withDepths nodes l = some r → ∀ {id : String} {n : DS.Node}, (id, n) ∈ l →
      ∃ d, depthFrom nodes (nodes.length + 1) n.parent 0 = some d ∧ (id, n, d) ∈ r := by
  intro l
  induction l with
  | nil =>
    intro r _ id n hmem
    cases hmem
  | cons e rest ih =>
    intro r h id n hmem
    obtain ⟨id₀, n₀⟩ := e
    rw [withDepths] at h
    rcases hd : depthFrom nodes (nodes.length + 1) n₀.parent 0 with _ | d₀ <;> rw [hd] at h
    · exact absurd (show (none : Option (List (String × DS.Node × Nat))) = some r from h)
        (by simp)
    rcases hrest : withDepths nodes rest with _ | r' <;> rw [hrest] at h
    · exact absurd (show (none : Option (List (String × DS.Node × Nat))) = some r from h)
        (by simp)
    have h' : some ((id₀, n₀, d₀) :: r') = some r := h
    injection h' with h'
    subst h'
    rcases List.mem_cons.mp hmem with heq | htail
    · injection heq with h₁ h₂
      subst h₁
      subst h₂
      exact ⟨d₀, hd, List.mem_cons_self _ _⟩
    · obtain ⟨d, hdep, hmem'⟩ := ih hrest htail
      exact ⟨d, hdep, List.mem_cons_of_mem _ hmem'⟩

theorem withDepths_split {nodes : List (String × DS.Node)} :
    ∀ (l₁ : List (String × DS.Node)) {e : String × DS.Node}
      {l₂ : List (String × DS.Node)} {r : List (String × DS.Node × Nat)},
      withDepths nodes (l₁ ++ e :: l₂) = some r →
      ∃ r₁ d r₂, r = r₁ ++ (e.1, e.2, d) :: r₂ ∧
        depthFrom nodes (nodes.length + 1) e.2.parent 0 = some d ∧
        withDepths nodes l₂ = some r₂ := by
  intro l₁
  induction l₁ with
  | nil =>
    intro e l₂ r h
    obtain ⟨id, n⟩ := e
    rw [List.nil_append, withDepths] at h
    rcases hd : depthFrom nodes (nodes.length + 1) n.parent 0 with _ | d <;> rw [hd] at h
    · exact absurd (show (none : Option (List (String × DS.Node × Nat))) = some r from h)
        (by simp)
    rcases hrest : withDepths nodes l₂ with _ | r' <;> rw [hrest] at h
    · exact absurd (show (none : Option (List (String × DS.Node × Nat))) = some r from h)
        (by simp)
    have h' : some ((id, n, d) :: r') = some r := h
    injection h' with h'
    subst h'
    exact ⟨[], d, r', by simp, rfl, rfl⟩
  | cons e₀ rest ih =>
    intro e l₂ r h
    obtain ⟨id₀, n₀⟩ := e₀
    rw [List.cons_append, withDepths] at h
    rcases hd₀ : depthFrom nodes (nodes.length + 1) n₀.parent 0 with _ | d₀ <;>
      rw [hd₀] at h
    · exact absurd (show (none : Option (List (String × DS.Node × Nat))) = some r from h)
        (by simp)
    rcases hrest : withDepths nodes (rest ++ e :: l₂) with _ | r' <;> rw [hrest] at h
    · exact absurd (show (none : Option (List (String × DS.Node × Nat))) = some r from h)
        (by simp)
    have h' : some ((id₀, n₀, d₀) :: r') = some r := h
    injection h' with h'
    subst h'
    obtain ⟨r₁, d, r₂, hr, hdep, hl₂⟩ := ih hrest
    exact ⟨(id₀, n₀, d₀) :: r₁, d, r₂, by rw [hr, List.cons_append], hdep, hl₂⟩

/-! ## The insertion sort is a stable sort by depth -/

theorem mem_insertByDepth {x z : String × DS.Node × Nat}
    {l : List (String × DS.Node × Nat)} :
    z ∈ insertByDepth x l ↔ z = x ∨ z ∈ l := by
  rw [(insertByDepth_perm x l).mem_iff]
  simp

theorem insertByDepth_sorted {x : String × DS.Node × Nat} :
    ∀ {l : List (String × DS.Node × Nat)},
      List.Pairwise (fun a b => a.2.2 ≤ b.2.2) l →
      List.Pairwise (fun a b => a.2.2 ≤ b.2.2) (insertByDepth x l) := by
  intro l
  induction l with
  | nil =>
    intro _
    simp [insertByDepth]
  | cons y rest ih =>
    intro hp
    obtain ⟨hy, hrest⟩ := List.pairwise_cons.mp hp
    rw [insertByDepth]
    by_cases h : x.2.2 ≤ y.2.2
    · rw [if_pos h]
      refine List.Pairwise.cons ?_ hp
      intro z hz
      rcases List.mem_cons.mp hz with rfl | hz'
      · exact h
      · exact le_trans h (hy z hz')
    · rw [if_neg h]
      refine List.Pairwise.cons ?_ (ih hrest)
      intro z hz
      rcases mem_insertByDepth.mp hz with rfl | hz'
      · omega
      · exact hy z hz'

theorem sortByDepth_sorted :
    ∀ l : List (String × DS.Node × Nat),
      List.Pairwise (fun a b => a.2.2 ≤ b.2.2) (sortByDepth l) := by
  intro l
  induction l with
  | nil => simp [sortByDepth]
  | cons x rest ih =>
    rw [sortByDepth]
    exact insertByDepth_sorted ih

theorem sublist_insertByDepth {x : String × DS.Node × Nat} :
    ∀ {m c : List (String × DS.Node × Nat)},
      List.Sublist c m → List.Sublist c (insertByDepth x m) := by
  intro m
  induction m with
  | nil =>
    intro c hc
    rw [List.sublist_nil.mp hc]
    exact List.nil_sublist _
  | cons y rest ih =>
    intro c hc
    rw [insertByDepth]
    by_cases h : x.2.2 ≤ y.2.2
    · rw [if_pos h]
      exact List.Sublist.cons x hc
    · rw [if_neg h]
      cases hc with
      | cons z hsub => exact List.Sublist.cons y (ih hsub)
      | cons₂ z hsub => exact List.Sublist.cons₂ y (ih hsub)

theorem insertByDepth_pair {a b : String × DS.Node × Nat} (hd : a.2.2 ≤ b.2.2) :
    ∀ {m : List (String × DS.Node × Nat)}, b ∈ m →
      List.Sublist [a, b] (insertByDepth a m) := by
  intro m
  induction m with
  | nil =>
    intro hb
    cases hb
  | cons y rest ih =>
    intro hb
    rw [insertByDepth]
    by_cases h : a.2.2 ≤ y.2.2
    · rw [if_pos h]
      exact List.Sublist.cons₂ a (List.singleton_sublist.mpr hb)
    · rw [if_neg h]
      rcases List.mem_cons.mp hb with rfl | hb'
      · exact absurd hd h
      · exact List.Sublist.cons y (ih hb')

theorem sortByDepth_pair_sublist {a b : String × DS.Node × Nat} (hd : a.2.2 ≤ b.2.2) :
    ∀ {l : List (String × DS.Node × Nat)},
      List.Sublist [a, b] l → List.Sublist [a, b] (sortByDepth l) := by
  intro l
  induction l with
  | nil =>
    intro h
    exact absurd (List.sublist_nil.mp h) (by simp)
  | cons x rest ih =>
    intro h
    rw [sortByDepth]
    cases h with
    | cons z hsub => exact sublist_insertByDepth (ih hsub)
    | cons₂ z hsub =>
      have hb : b ∈ sortByDepth rest :=
        (sortByDepth_perm rest).mem_iff.mpr (List.singleton_sublist.mp hsub)
      exact insertByDepth_pair hd hb

theorem sublist_pair_split {a b : String × DS.Node × Nat} :
    ∀ {l : List (String × DS.Node × Nat)}, List.Sublist [a, b] l →
      ∃ l₁ l₂ l₃, l = l₁ ++ a :: l₂ ++ b :: l₃ := by
  intro l
  induction l with
  | nil =>
    intro h
    exact absurd (List.sublist_nil.mp h) (by simp)
  | cons x rest ih =>
    intro h
    cases h with
    | cons z hsub =>
      obtain ⟨l₁, l₂, l₃, hsplit⟩ := ih hsub
      exact ⟨x :: l₁, l₂, l₃, by simp [hsplit]⟩
    | cons₂ z hsub =>
      obtain ⟨m₁, m₂, hm⟩ := List.append_of_mem (List.singleton_sublist.mp hsub)
      exact ⟨[], m₁, m₂, by simp [hm]⟩

theorem sorted_mem_split {sorted : List (String × DS.Node × Nat)}
    (hs : List.Pairwise (fun a b => a.2.2 ≤ b.2.2) sorted)
    {p c : String × DS.Node × Nat} (hp : p ∈ sorted) (hc : c ∈ sorted)
    (hlt : p.2.2 < c.2.2) :
    ∃ A B₁ B₂, sorted = A ++ p :: B₁ ++ c :: B₂ := by
  obtain ⟨A, B, hAB⟩ := List.append_of_mem hp
  subst hAB
  rcases List.mem_append.mp hc with hcA | hcB
  · exfalso
    have := (List.pairwise_append.mp hs).2.2 c hcA p (List.mem_cons_self p B)
    omega
  · rcases List.mem_cons.mp hcB with rfl | hcB'
    · omega
    · obtain ⟨B₁, B₂, hB⟩ := List.append_of_mem hcB'
      subst hB
      exact ⟨A, B₁, B₂, by simp⟩

/-! ## From a split of the sorted list to a split of the insertion log -/

theorem nodePhase_append :
    ∀ (L₁ L₂ : List (String × DS.Node × Nat)) (s : SyncState),
      nodePhase s (L₁ ++ L₂) = nodePhase (nodePhase s L₁) L₂ := by
  intro L₁
  induction L₁ with
  | nil =>
    intro L₂ s
    rfl
  | cons e rest ih =>
    intro L₂ s
    obtain ⟨id, n, d⟩ := e
    exact ih L₂ (addDataNode s id n)

theorem sorted_split_to_log {ds : DS.DataSet} {nwd : List (String × DS.Node × Nat)}
    {elems : List CyElement} {A B₁ B₂ : List (String × DS.Node × Nat)}
    {p c : String} {pn cn : DS.Node} {dp dc : Nat}
    (hwd : withDepths ds.nodes ds.nodes = some nwd)
    (happ : applyToCytoscape ds = some elems)
    (hs : sortByDepth nwd = A ++ (p, pn, dp) :: B₁ ++ (c, cn, dc) :: B₂) :
    ∃ l₁ l₂ l₃, elems = l₁ ++ CyElement.node p pn.label pn.parent ::
      l₂ ++ CyElement.node c cn.label cn.parent :: l₃ := by
  rw [applyToCytoscape, hwd] at happ
  have helems : (edgePhase (nodePhase (initState ds) (sortByDepth nwd)) ds.edges).elements
      = elems := by
    injection happ
  rw [hs] at helems
  rw [nodePhase_append (A ++ (p, pn, dp) :: B₁) ((c, cn, dc) :: B₂),
    nodePhase_append A ((p, pn, dp) :: B₁)] at helems
  have hstep : nodePhase (nodePhase (initState ds) A) ((p, pn, dp) :: B₁)
      = nodePhase (addDataNode (nodePhase (initState ds) A) p pn) B₁ := rfl
  rw [hstep] at helems
  have hstep₂ : nodePhase (nodePhase (addDataNode (nodePhase (initState ds) A) p pn) B₁)
      ((c, cn, dc) :: B₂)
      = nodePhase (addDataNode (nodePhase (addDataNode (nodePhase (initState ds) A) p pn)
          B₁) c cn) B₂ := rfl
  rw [hstep₂] at helems
  obtain ⟨t₁, ht₁⟩ := addDataNode_elements (nodePhase (initState ds) A) p pn
  obtain ⟨t₂, ht₂⟩ := nodePhase_elements_append B₁
    (addDataNode (nodePhase (initState ds) A) p pn)
  obtain ⟨t₃, ht₃⟩ := addDataNode_elements
    (nodePhase (addDataNode (nodePhase (initState ds) A) p pn) B₁) c cn
  obtain ⟨t₄, ht₄⟩ := nodePhase_elements_append B₂
    (addDataNode (nodePhase (addDataNode (nodePhase (initState ds) A) p pn) B₁) c cn)
  obtain ⟨t₅, ht₅⟩ := edgePhase_elements_append ds.edges
    (nodePhase (addDataNode (nodePhase (addDataNode (nodePhase (initState ds) A) p pn)
      B₁) c cn) B₂)
  rw [ht₅, ht₄, ht₃, ht₂, ht₁] at helems
  refine ⟨(nodePhase (initState ds) A).elements ++ t₁, t₂ ++ t₃, t₄ ++ t₅, ?_⟩
  rw [← helems]
  simp

/-! ## Claim C1 — insertion order of nodes -/

/-- Claim C1, amended: during a successful rebuild nodes are inserted in
ascending order of their computed parent-chain depth — any entry of
strictly smaller depth is inserted strictly earlier, and entries of equal
depth are inserted in data-set order (stability) — and consequently, for
every node whose parent identifier is truthy (non-empty) and resolves to
a node of the same data set, the parent element is inserted strictly
before the child. The original claim, quantifying over every resolving
parent identifier, fails when the parent identifier is the empty string
(see the counterexample), because the walk and the pre-insert guard use
JS truthiness. -/
theorem nodes_inserted_in_depth_order (ds : DS.DataSet)
    (nwd : List (String × DS.Node × Nat)) (elems : List CyElement)
    (hwd : withDepths ds.nodes ds.nodes = some nwd)
    (happ : applyToCytoscape ds = some elems) :
    (∀ id₁ n₁ d₁ id₂ n₂ d₂, (id₁, n₁, d₁) ∈ nwd → (id₂, n₂, d₂) ∈ nwd → d₁ < d₂ →
      ∃ l₁ l₂ l₃, elems = l₁ ++ CyElement.node id₁ n₁.label n₁.parent ::
        l₂ ++ CyElement.node id₂ n₂.label n₂.parent :: l₃) ∧
    (∀ L₁ id₁ n₁ L₂ id₂ n₂ L₃ d₁ d₂,
      ds.nodes = L₁ ++ (id₁, n₁) :: (L₂ ++ (id₂, n₂) :: L₃) →
      depthFrom ds.nodes (ds.nodes.length + 1) n₁.parent 0 = some d₁ →
      depthFrom ds.nodes (ds.nodes.length + 1) n₂.parent 0 = some d₂ →
      d₁ = d₂ →
      ∃ l₁ l₂ l₃, elems = l₁ ++ CyElement.node id₁ n₁.label n₁.parent ::
        l₂ ++ CyElement.node id₂ n₂.label n₂.parent :: l₃) ∧
    (∀ c cn p pn, (c, cn) ∈ ds.nodes → cn.parent = some p → p ≠ "" →
      lookupId p ds.nodes = some pn →
      ∃ l₁ l₂ l₃, elems = l₁ ++ CyElement.node p pn.label pn.parent ::
        l₂ ++ CyElement.node c cn.label cn.parent :: l₃) := by
  have hsorted := sortByDepth_sorted nwd
  have hstrict : ∀ id₁ n₁ d₁ id₂ n₂ d₂,
      (id₁, n₁, d₁) ∈ nwd → (id₂, n₂, d₂) ∈ nwd → d₁ < d₂ →
      ∃ l₁ l₂ l₃, elems = l₁ ++ CyElement.node id₁ n₁.label n₁.parent ::
        l₂ ++ CyElement.node id₂ n₂.label n₂.parent :: l₃ := by
    intro id₁ n₁ d₁ id₂ n₂ d₂ h₁ h₂ hlt
    have hm₁ : (id₁, n₁, d₁) ∈ sortByDepth nwd := (sortByDepth_perm nwd).mem_iff.mpr h₁
    have hm₂ : (id₂, n₂, d₂) ∈ sortByDepth nwd := (sortByDepth_perm nwd).mem_iff.mpr h₂
    obtain ⟨A, B₁, B₂, hsp⟩ := sorted_mem_split hsorted hm₁ hm₂ hlt
    exact sorted_split_to_log hwd happ hsp
  refine ⟨hstrict, ?_, ?_⟩
  · intro L₁ id₁ n₁ L₂ id₂ n₂ L₃ d₁ d₂ hsplit hd₁ hd₂ heq
    have hwd' := hwd
    rw [hsplit] at hwd' hd₁ hd₂
    obtain ⟨R₁, d₁', R₂, hnwd, hdep₁, hrest⟩ := withDepths_split L₁ hwd'
    have hd₁e : d₁' = d₁ := by
      have h := hdep₁.symm.trans hd₁
      injection h
    rw [hd₁e] at hnwd
    obtain ⟨R₂₁, d₂', R₂₂, hR₂, hdep₂, -⟩ := withDepths_split L₂ hrest
    have hd₂e : d₂' = d₂ := by
      have h := hdep₂.symm.trans hd₂
      injection h
    rw [hd₂e] at hR₂
    have hpair : List.Sublist [(id₁, n₁, d₁), (id₂, n₂, d₂)] nwd := by
      rw [hnwd, hR₂]
      refine List.Sublist.trans ?_ (List.sublist_append_right R₁ _)
      exact List.Sublist.cons₂ _
        (List.singleton_sublist.mpr
          (List.mem_append_right _ (List.mem_cons_self _ _)))
    have hps := sortByDepth_pair_sublist (by simp [heq]) hpair
    obtain ⟨A, B₁, B₂, hsp⟩ := sublist_pair_split hps
    exact sorted_split_to_log hwd happ hsp
  · intro c cn p pn hmem hpar hp hlk
    obtain ⟨dc, hdc, hmemc⟩ := withDepths_mem hwd hmem
    rw [hpar] at hdc
    obtain ⟨dp, hdp, hsucc⟩ := depth_child_succ hp hlk hdc
    obtain ⟨dp', hdp', hmemp⟩ := withDepths_mem hwd (mem_of_lookupId hlk)
    have hdp'' : dp' = dp := by
      have h := hdp'.symm.trans hdp
      injection h
    rw [hdp''] at hmemp
    exact hstrict p pn dp c cn dc hmemp hmemc (by omega)

/-- Counterexample to claim C1 as stated: in `dsEmptyKey`, node `B`'s
parent identifier `""` resolves to another node of the same data set
(the empty string is a legal object key), yet the rebuild inserts the
child `B` strictly before its parent: the depth walk and the pre-insert
guard test JS truthiness, under which the empty string does not count as
a parent reference. -/
theorem parent_order_empty_key_cex :
    lookupId "" dsEmptyKey.nodes = some ⟨"root", none⟩ ∧
    ("B", DS.Node.mk "B" (some "")) ∈ dsEmptyKey.nodes ∧
    applyToCytoscape dsEmptyKey =
      some [CyElement.node "B" "B" (some ""), CyElement.node "" "root" none] ∧
    ¬ ∃ l₁ l₂ l₃,
      [CyElement.node "B" "B" (some ""), CyElement.node "" "root" none]
      = l₁ ++ CyElement.node "" "root" none ::
          l₂ ++ CyElement.node "B" "B" (some "") :: l₃ := by
  refine ⟨by decide, by decide, by decide, ?_⟩
  rintro ⟨l₁, l₂, l₃, h⟩
  have hlen := congrArg List.length h
  simp [List.length_append] at hlen
  have h₁ : l₁ = [] := List.length_eq_zero.mp (by omega)
  have h₂ : l₂ = [] := List.length_eq_zero.mp (by omega)
  have h₃ : l₃ = [] := List.length_eq_zero.mp (by omega)
  subst h₁
  subst h₂
  subst h₃
  exact absurd h (by decide)

/-- Witness for `nodes_inserted_in_depth_order` on the three-node chain
given out of order: the parent `b` is inserted strictly before its child
`c`. -/
theorem nodes_inserted_in_depth_order_witness :
    ∃ l₁ l₂ l₃,
      [CyElement.node "a" "a" none, CyElement.node "b" "b" (some "a"),
        CyElement.node "c" "c" (some "b")]
      = l₁ ++ CyElement.node "b" "b" (some "a") ::
          l₂ ++ CyElement.node "c" "c" (some "b") :: l₃ :=
  (nodes_inserted_in_depth_order dsChain
      [("c", ⟨"c", some "b"⟩, 2), ("a", ⟨"a", none⟩, 0), ("b", ⟨"b", some "a"⟩, 1)]
      [CyElement.node "a" "a" none, CyElement.node "b" "b" (some "a"),
        CyElement.node "c" "c" (some "b")]
      (by decide) (by decide)).2.2 "c" ⟨"c", some "b"⟩ "b" ⟨"b", some "a"⟩
    (by decide) rfl (by decide) (by decide)

end HalDiagram
